import Mathlib

/-!
Shallow embedding of `wikitextlib.py` (delimiter-balanced wikitext scanning,
heading/section decomposition, link and template models) and proofs about the
frozen claims.  Text is modelled as `List Char`; Python string slices,
`str.find`, `re`-based multi-needle search and loops with cursors are
translated with explicit index arithmetic.  Loops whose cursor strictly
advances are translated with a fuel parameter that is always at least the
number of iterations the Python loop can make (the cursor advances by at
least one per iteration and is bounded by the text length), so the fuel
never runs out on any input.
-/

/-- Text is a list of characters (Python `str`). -/
abbrev Str := List Char

/-- Coerce a Lean string literal to the `Str` model. -/
def str (s : String) : Str := s.data

/-- Python `str.strip` / `rstrip` whitespace set (ASCII whitespace). -/
def isSpace (c : Char) : Bool :=
  c = ' ' || c = '\t' || c = '\n' || c = '\r' || c = '\x0b' || c = '\x0c'

/-- Python `s.lstrip()`. -/
def lstrip (s : Str) : Str := s.dropWhile isSpace

/-- Python `s.rstrip()`. -/
def rstrip (s : Str) : Str := (s.reverse.dropWhile isSpace).reverse

/-- Python `s.strip()`. -/
def strip (s : Str) : Str := lstrip (rstrip s)

/-- Python slice `s[a:b]` (for `0 ≤ a`, `0 ≤ b`; clamping matches `List.take`/`drop`). -/
def listSlice {α : Type} (s : List α) (a b : Nat) : List α := (s.take b).drop a

/-- One step of `_minfind`: try the needles, in order, at the current position;
on failure advance one character thereby scanning for the earliest match, like
the regex alternation in the source (`re.compile("|".join(...)).search`).
No two of the needle sets used in the source can match at the same offset
except in `_remove_extra`, where the first alternative wins, as in `re`. -/
def minfindGo (needles : List Str) : Str → Nat → Option (Nat × Str)
  | [], _ => none
  | c :: rest, pos =>
    match needles.find? (fun n => n.isPrefixOf (c :: rest)) with
    | some n => some (pos, n)
    | none => minfindGo needles rest (pos + 1)

/-- Python `_minfind(haystack, needles, index)`: position and identity of the
earliest needle occurrence at or after `index`, or `None`. -/
def minfind (text : Str) (needles : List Str) (index : Nat) : Option (Nat × Str) :=
  minfindGo needles (text.drop index) index

/-- Python `_safefind(haystack, needle, start, end=True)`:
offset just after the first occurrence at or after `start`, or `len(haystack)`
if absent. -/
def safefindEnd (haystack needle : Str) (start : Nat) : Nat :=
  match minfind haystack [needle] start with
  | some fd => fd.1 + needle.length
  | none => haystack.length

/-- Loop body of `_remove_extra`: drop comment (`<!-- -->`) and verbatim
(`<nowiki> </nowiki>`) spans.  `lookstart` strictly increases by at least the
opener length each iteration, so fuel `text.length + 1` never runs out. -/
def remove_extraGo (text : Str) : Nat → Nat → Str → Str
  | 0, lookstart, result => result ++ text.drop lookstart
  | fuel + 1, lookstart, result =>
    if lookstart < text.length then
      match minfind text [str "<!--", str "<nowiki>"] lookstart with
      | some fd =>
        let result := result ++ listSlice text lookstart fd.1
        let lookstart := fd.1 + fd.2.length
        let lookstart :=
          if fd.2 = str "<!--" then safefindEnd text (str "-->") lookstart
          else if fd.2 = str "<nowiki>" then
            safefindEnd text (str "</nowiki>") lookstart
          else lookstart
        remove_extraGo text fuel lookstart result
      | none => result ++ text.drop lookstart
    else result ++ text.drop lookstart

/-- Python `_remove_extra(text)`. -/
def remove_extra (text : Str) : Str :=
  remove_extraGo text (text.length + 1) 0 []

/-- Maximum heading level (`MAXIMUM_HEADING_LEVEL` in the source). -/
def MAXIMUM_HEADING_LEVEL : Nat := 6

/-- A wikitext heading (namedtuple `Heading`); `text = none` is the sentinel
used by `iterate_headings` for content before the first heading. -/
structure Heading where
  level : Nat
  text : Option Str
  deriving DecidableEq

/-- The `while` loop of `parse_heading`: grow `eq` while both the `eq`-th
character from the start and from the end are `'='`, bounded by
`min (MAXIMUM_HEADING_LEVEL + 1) (len text / 2)`.  In Python the bound check
short-circuits before the index accesses, so indices are always in range;
`getD` with an arbitrary default is therefore faithful.  The loop runs at most
`MAXIMUM_HEADING_LEVEL + 1` times, which is the fuel supplied. -/
def headingEqGo (text : Str) : Nat → Nat → Nat
  | 0, eq => eq
  | fuel + 1, eq =>
    if eq < min (MAXIMUM_HEADING_LEVEL + 1) (text.length / 2) ∧
        text.getD eq ' ' = '=' ∧ text.getD (text.length - 1 - eq) ' ' = '='
    then headingEqGo text fuel (eq + 1)
    else eq

/-- Python `parse_heading(text)`. -/
def parse_heading (text : Str) : Option Heading :=
  if '\n' ∈ text then none
  else
    let eq := headingEqGo text (MAXIMUM_HEADING_LEVEL + 1) 0
    if eq > 0 then
      let eq := min eq 6
      some ⟨eq, some (strip (listSlice text eq (text.length - eq)))⟩
    else none

/-- A wikitext internal link (namedtuple `InternalLink`). -/
structure InternalLink where
  target : Str
  text : Str
  deriving DecidableEq

/-- Result of `parse_internal_link`: a parsed link, Python `None`, or the
`TypeError` Python raises when `"|" in link` holds but the stripped inner text
contains no pipe (`InternalLink(*linki.split("|", 1))` with a 1-element list). -/
inductive LinkResult where
  | link (l : InternalLink)
  | notLink
  | typeError
  deriving DecidableEq

/-- Python `linki.split("|", 1)` when it yields two parts: text before the
first `c` and text after it. -/
def splitOnceGo (c : Char) : Str → Str → Option (Str × Str)
  | [], _ => none
  | x :: rest, acc =>
    if x = c then some (acc.reverse, rest) else splitOnceGo c rest (x :: acc)

/-- First-occurrence split (Python `s.split(c, 1)` giving two parts, `none`
when `c` does not occur in `s`). -/
def splitOnce (s : Str) (c : Char) : Option (Str × Str) := splitOnceGo c s []

/-- Python `parse_internal_link(link)`.  Note the source really tests
`link.startswith("[[") or link.endswith("]]")` (not `and`). -/
def parse_internal_link (link : Str) : LinkResult :=
  if (str "[[").isPrefixOf link || (str "]]").isSuffixOf link then
    let linki := listSlice link 2 (link.length - 2)
    if '|' ∈ link then
      match splitOnce linki '|' with
      | some ab => .link ⟨ab.1, ab.2⟩
      | none => .typeError
    else .link ⟨linki, linki⟩
  else .notLink

/-- Inner `while depth > 0` loop of `_find_internal_links_raw` (the same loop
appears verbatim in the `"[["` branch of `parse_wikitext`).  Note the source
sets `depth = 0` on `"]]"` (it does not decrement).  `lookstart` advances by
at least 2 per iteration, so fuel `text.length + 1` never runs out. -/
def linkScanGo (text : Str) : Nat → Nat → Nat → Nat
  | 0, _, lookstart => lookstart
  | fuel + 1, depth, lookstart =>
    if depth > 0 then
      match minfind text [str "[[", str "]]"] lookstart with
      | some fd =>
        let depth :=
          if fd.2 = str "[[" then depth + 1
          else if fd.2 = str "]]" then 0
          else depth
        linkScanGo text fuel depth (fd.1 + fd.2.length)
      | none => lookstart
    else lookstart

/-- Outer loop of `_find_internal_links_raw`: successive `(linkstart, linkend)`
spans.  `start` strictly increases by at least 2 per yielded span, so fuel
`text.length + 1` never runs out. -/
def findLinksGo (text : Str) : Nat → Nat → List (Nat × Nat)
  | 0, _ => []
  | fuel + 1, start =>
    match minfind text [str "[["] start with
    | some fd =>
      let linkstart := fd.1
      let linkend := linkScanGo text (text.length + 1) 1 (linkstart + 2)
      let rest := findLinksGo text fuel linkend
      if linkstart < linkend then (linkstart, linkend) :: rest else rest
    | none => []

/-- Python `_find_internal_links_raw(text)` as the list its generator yields. -/
def find_internal_links_raw (text : Str) : List (Nat × Nat) :=
  findLinksGo text (text.length + 1) 0

/-- Template argument keys: positional parameters carry Python `int` keys,
named parameters carry `str` keys (always distinct values in the model, as in
Python where `1 != "1"`). -/
inductive TKey where
  | num (n : Nat)
  | name (s : Str)
  deriving DecidableEq

/-- One scan step state result of the argument-splitting loop of
`parse_template`: the chunk list built so far, the pending key and the last
separator position (`pars`, `thiskey`, `lastpar`). -/
def tscanNeedles (depth linkdepth : Int) (hadeq : Nat)
    (pars : List (Option Str × Str)) : List Str :=
  [str "\x7b\x7b", str "\x7d\x7d", str "[[", str "]]"]
    ++ (if depth = 0 ∧ linkdepth = 0 then [str "|"] else [])
    ++ (if depth = 0 ∧ linkdepth = 0 ∧ hadeq = 0 ∧ pars ≠ [] then [str "="]
        else [])

/-- The `while True` scan loop of `parse_template` over the inner text.
`depth`/`linkdepth` are `Int` because the Python counters can go negative on
stray closers.  `findind` strictly increases each iteration (every needle is
nonempty), so fuel `text.length + 1` never runs out. -/
def tscanGo (text : Str) :
    Nat → Int → Int → Nat → Nat → Nat → List (Option Str × Str) → Option Str →
    List (Option Str × Str) × Option Str × Nat
  | 0, _, _, lastpar, _, _, pars, thiskey => (pars, thiskey, lastpar)
  | fuel + 1, depth, linkdepth, lastpar, findind, hadeq, pars, thiskey =>
    match minfind text (tscanNeedles depth linkdepth hadeq pars) findind with
    | none => (pars, thiskey, lastpar)
    | some fd =>
      let findind := fd.1 + fd.2.length
      let depth :=
        if fd.2 = str "\x7b\x7b" then depth + 1
        else if fd.2 = str "\x7d\x7d" then depth - 1
        else depth
      if fd.2 = str "[[" then
        tscanGo text fuel depth (linkdepth + 1) lastpar findind hadeq pars
          thiskey
      else if fd.2 = str "]]" then
        tscanGo text fuel depth (linkdepth - 1) lastpar findind hadeq pars
          thiskey
      else if fd.2 = str "|" then
        tscanGo text fuel depth linkdepth (fd.1 + fd.2.length) findind 0
          (pars ++ [(thiskey, listSlice text lastpar fd.1)]) none
      else if fd.2 = str "=" then
        tscanGo text fuel depth linkdepth (fd.1 + fd.2.length) findind 1 pars
          (some (listSlice text lastpar fd.1))
      else
        tscanGo text fuel depth linkdepth lastpar findind hadeq pars thiskey

/-- The complete chunk list `pars` of `parse_template` for the inner text
(the scan loop followed by the final `pars.append((thiskey, text[lastpar:]))`). -/
def templateChunks (inner : Str) : List (Option Str × Str) :=
  let r := tscanGo inner (inner.length + 1) 0 0 0 0 0 [] none
  r.1 ++ [(r.2.1, inner.drop r.2.2)]

/-- Insertion into the ordered mapping (Python `parsed[k] = v` on an
`OrderedDict`): updating an existing key keeps its position, a fresh key is
appended at the end. -/
def odInsert (m : List (TKey × Str)) (k : TKey) (v : Str) :
    List (TKey × Str) :=
  if m.any (fun p => decide (p.1 = k)) then
    m.map (fun p => if p.1 = k then (k, v) else p)
  else m ++ [(k, v)]

/-- Lookup in the ordered mapping (Python `parsed[k]`; total with `[]` for a
missing key, only used where Python guarantees presence). -/
def odLookup (m : List (TKey × Str)) (k : TKey) : Str :=
  match m.find? (fun p => decide (p.1 = k)) with
  | some p => p.2
  | none => []

/-- A duplicate-parameter diagnostic (Python `warnings.warn(f"duplicate
parameter {k}: {v} to replace existing {k}={parsed[k]}", WikitextWarning)`),
modelled as the triple (key, new value, old value) carried by the message. -/
abbrev Diag := Str × Str × Str

/-- The argument-building loop of `parse_template` over `pars[1:]`:
named chunks are stripped and stored under their string key (a duplicate
warns and overwrites), unlabeled chunks are stored as-is under the next
sequential integer key. -/
def buildArgsGo :
    List (Option Str × Str) → Nat → List (TKey × Str) → List Diag →
    List (TKey × Str) × List Diag × Nat
  | [], parind, parsed, warns => (parsed, warns, parind)
  | (some k, v) :: rest, parind, parsed, warns =>
    let k := strip k
    let v := strip v
    let warns :=
      if parsed.any (fun p => decide (p.1 = TKey.name k)) then
        warns ++ [(k, v, odLookup parsed (TKey.name k))]
      else warns
    buildArgsGo rest parind (odInsert parsed (TKey.name k) v) warns
  | (none, v) :: rest, parind, parsed, warns =>
    buildArgsGo rest (parind + 1) (odInsert parsed (TKey.num (parind + 1)) v)
      warns

/-- A wikitext template invocation (namedtuple `Template`); `args` is the
insertion-ordered mapping. -/
structure Template where
  src : Str
  name : Str
  args : List (TKey × Str)
  deriving DecidableEq

/-- Python `parse_template(text)`, with the `warnings.warn` side channel made
explicit as the second component. -/
def parse_template (text : Str) : Option (Template × List Diag) :=
  if (str "\x7b\x7b").isPrefixOf text ∧ (str "\x7d\x7d").isSuffixOf text then
    let inner := listSlice text 2 (text.length - 2)
    let pars := templateChunks inner
    let nameChunk := (pars.headD (none, [])).2
    let r := buildArgsGo (pars.drop 1) 0 [] []
    some (⟨text, strip nameChunk, r.1⟩, r.2.1)
  else none

/-- Python `_extract_positional_args`'s `while ctr in args` loop.  `ctr`
increases each iteration and at most `args.length` distinct integer keys
exist, so fuel `args.length + 1` never runs out. -/
def extractPositionalGo (args : List (TKey × Str)) : Nat → Nat → List Str
  | 0, _ => []
  | fuel + 1, ctr =>
    if args.any (fun p => decide (p.1 = TKey.num ctr)) then
      odLookup args (TKey.num ctr) :: extractPositionalGo args fuel (ctr + 1)
    else []

/-- Python `_extract_positional_args(args)`. -/
def extract_positional_args (args : List (TKey × Str)) : List Str :=
  extractPositionalGo args (args.length + 1) 1

/-- Python `get_positional_args(template)`: `[None] + positional values`,
modelled with `Option` (`none` is the dummy zeroth element). -/
def get_positional_args (template : Template) : List (Option Str) :=
  none :: (extract_positional_args template.args).map some

/-- Python `dict(args).get(k, d)` (`argsresolve` in `make_template`): the
value of the last entry with key `k`, or `d`. -/
def dictGetD (args : List (TKey × Str)) (k : TKey) (d : Str) : Str :=
  match args.reverse.find? (fun p => decide (p.1 = k)) with
  | some p => p.2
  | none => d

/-- The densifying rebuild inside `make_template` (the `pathological` branch):
walk `argsorig` keeping named entries, dropping integer keys not above `skip`
and, before each new record integer key `k`, filling positions
`skip, ..., k-1` from `dict(args)` (default `""`). -/
def mtRebuildGo (orig : List (TKey × Str)) :
    List (TKey × Str) → Nat → List (TKey × Str) → List (TKey × Str)
  | [], _, acc => acc
  | (TKey.name s, v) :: rest, skip, acc =>
    mtRebuildGo orig rest skip (acc ++ [(TKey.name s, v)])
  | (TKey.num key, v) :: rest, skip, acc =>
    if key ≤ skip then mtRebuildGo orig rest skip acc
    else
      mtRebuildGo orig rest key
        (acc
          ++ (List.range' skip (key - skip)).map
            (fun j => (TKey.num j, dictGetD orig (TKey.num j) (str "")))
          ++ [(TKey.num key, v)])

/-- Result of one pass of the `for key, value in args` loop of
`make_template` (`num_first=False`): either the finished `argstr`, or the
rebuilt argument list after the `pathological` break. -/
inductive MtPass where
  | done (argstr : Str)
  | redo (newArgs : List (TKey × Str))

/-- One pass of the emission loop of `make_template` (`num_first=False`).
`cur` is the list being iterated this pass (`args`), also consulted whole by
the rebuild (`argsorig` / `argsresolve`). -/
def mtPassGo (cur : List (TKey × Str)) :
    List (TKey × Str) → Str → Nat → MtPass
  | [], argstr, _ => .done argstr
  | (TKey.name s, v) :: rest, argstr, argindx =>
    mtPassGo cur rest (argstr ++ '|' :: s ++ '=' :: v) argindx
  | (TKey.num key, v) :: rest, argstr, argindx =>
    if argindx < key then mtPassGo cur rest (argstr ++ '|' :: v) key
    else if key < argindx then .redo (mtRebuildGo cur cur 1 [])
    else mtPassGo cur rest argstr argindx

/-- The `while True` loop of `make_template` (`num_first=False`).  A
reconciliation pass can happen at most once (after the rebuild the integer
keys are exactly `1, 2, ...` in order), so any fuel of at least 2 suffices. -/
def mtLoop (name : Str) : Nat → List (TKey × Str) → Str
  | 0, _ => []
  | fuel + 1, args =>
    match mtPassGo args args [] 0 with
    | .done argstr => str "\x7b\x7b" ++ name ++ argstr ++ str "\x7d\x7d"
    | .redo newArgs => mtLoop name fuel newArgs

/-- Python `make_template(name, args, num_first=False)` (the default,
interleaved mode; the `num_first=True` branch is not involved in any claim
and is not modelled). -/
def make_template (name : Str) (args : List (TKey × Str)) : Str :=
  mtLoop name (args.length + 2) args

/-- Python `str.splitlines()` restricted to the `\n`, `\r\n` and `\r`
terminators (a trailing terminator produces no trailing empty line). -/
def splitlinesGo : Str → Str → List Str
  | [], acc => [acc.reverse]
  | '\r' :: '\n' :: rest, acc =>
    acc.reverse :: (if rest.isEmpty then [] else splitlinesGo rest [])
  | '\r' :: rest, acc =>
    acc.reverse :: (if rest.isEmpty then [] else splitlinesGo rest [])
  | '\n' :: rest, acc =>
    acc.reverse :: (if rest.isEmpty then [] else splitlinesGo rest [])
  | c :: rest, acc => splitlinesGo rest (c :: acc)

/-- Python `text.splitlines()`. -/
def splitlines (s : Str) : List Str :=
  if s.isEmpty then [] else splitlinesGo s []

/-- Python `"\n".join(lines)`. -/
def joinLines : List Str → Str
  | [] => []
  | [l] => l
  | l :: rest => l ++ '\n' :: joinLines rest

/-- Error taxonomy of `get_section_text`: `usageError` is the `ValueError`
for a level outside 1..6, `notFound` the `WikitextError` carrying the level
and heading sought. -/
inductive SectionError where
  | usageError
  | notFound (level : Nat) (heading : Str)
  deriving DecidableEq

/-- The `for i, line in enumerate(lines)` loop of `get_section_text`,
returning the final `(start_line, end_line)`.  Python evaluates the `elif`
guard as `(start_line is not None and top) or h.level <= level`. -/
def sectionScan (level : Nat) (heading : Str) (top : Bool) :
    List Str → Nat → Option Nat → Option Nat → Option Nat × Option Nat
  | [], _, sl, el => (sl, el)
  | line :: rest, i, sl, el =>
    match parse_heading (rstrip line) with
    | some h =>
      if h.level = level ∧ h.text = some heading then
        sectionScan level heading top rest (i + 1) (some (i + 1)) el
      else if (sl.isSome ∧ top = true) ∨ h.level ≤ level then
        sectionScan level heading top rest (i + 1) sl (some i)
      else sectionScan level heading top rest (i + 1) sl el
    | none => sectionScan level heading top rest (i + 1) sl el

/-- Python `get_section_text(text, level, heading, top=False)`. -/
def get_section_text (text : Str) (level : Nat) (heading : Str)
    (top : Bool) : Except SectionError Str :=
  if level < 1 ∨ MAXIMUM_HEADING_LEVEL < level then .error .usageError
  else
    let text := remove_extra text
    let lines := splitlines text
    let r := sectionScan level heading top lines 0 none none
    let endLine := r.2.getD lines.length
    match r.1 with
    | some startLine => .ok (joinLines (listSlice lines startLine endLine))
    | none => .error (.notFound level heading)

/-- Decidable equality helpers for the result types, so that concrete runs of
the embedded functions can be checked by `decide`. -/
instance : DecidableEq (Template × List Diag) := inferInstance

deriving instance DecidableEq for Except

/-- The integer-keyed (positional) entries of an argument mapping, in order. -/
def intEntries (m : List (TKey × Str)) : List (Nat × Str) :=
  m.filterMap (fun p =>
    match p.1 with
    | TKey.num k => some (k, p.2)
    | TKey.name _ => none)

/-- The values of the unlabeled chunks of a chunk list, in order. -/
def noneVals (pars : List (Option Str × Str)) : List Str :=
  pars.filterMap (fun p =>
    match p.1 with
    | none => some p.2
    | some _ => none)

/-- Pair each value with consecutive integer keys starting at `n`. -/
def numberFrom (n : Nat) : List Str → List (Nat × Str)
  | [] => []
  | v :: vs => (n, v) :: numberFrom (n + 1) vs

/-- The integer keys of an argument mapping, in order of occurrence. -/
def intKeys (m : List (TKey × Str)) : List Nat :=
  (intEntries m).map Prod.fst

/-- Characters with a structural meaning to the template scanner (the heads
of the needles `{{`, `}}`, `[[`, `]]`, `|`, `=`). -/
def specialChar (c : Char) : Bool :=
  c = '{' || c = '}' || c = '[' || c = ']' || c = '|' || c = '='

/-- A markup-free string: none of its characters is special. -/
def plainStrB (s : Str) : Bool := s.all (fun c => !specialChar c)

/-- A markup-free argument key (integer keys carry no text). -/
def plainKeyB : TKey → Bool
  | TKey.num _ => true
  | TKey.name k => plainStrB k

/-- A markup-free argument list: every key and value is markup-free. -/
def plainArgsB (args : List (TKey × Str)) : Bool :=
  args.all (fun p => plainKeyB p.1 && plainStrB p.2)

/-- The body text one argument contributes to a serialized template:
`value` for a positional entry, `key=value` for a named one. -/
def chunkBody : TKey × Str → Str
  | (TKey.num _, v) => v
  | (TKey.name k, v) => k ++ '=' :: v

/-- The full text one argument contributes: `|` then the body. -/
def chunkText (p : TKey × Str) : Str := '|' :: chunkBody p

/-- The argument part of a serialized template invocation. -/
def chunkTexts : List (TKey × Str) → Str
  | [] => []
  | c :: cs => chunkText c ++ chunkTexts cs

/-- The scanner chunk an argument should parse back to: an unlabeled chunk
for a positional entry, a keyed chunk for a named one. -/
def parsedChunk : TKey × Str → Option Str × Str
  | (TKey.num _, v) => (none, v)
  | (TKey.name k, v) => (some k, v)

/-- The scanner chunks a serialized argument list should parse back to. -/
def parsedChunks (cs : List (TKey × Str)) : List (Option Str × Str) :=
  cs.map parsedChunk

/-- Specification mirror of one emission pass of `make_template`
(`num_first=False`): `none` when a `pathological` (out-of-order) integer key
is hit, otherwise the emitted argument text together with the final
`argindx`. -/
def passGo (a : Nat) : List (TKey × Str) → Option (Str × Nat)
  | [] => some ([], a)
  | (TKey.name k, v) :: rest =>
    (passGo a rest).map (fun r => (chunkText (TKey.name k, v) ++ r.1, r.2))
  | (TKey.num key, v) :: rest =>
    if a < key then
      (passGo key rest).map (fun r => (chunkText (TKey.num key, v) ++ r.1, r.2))
    else if key < a then none
    else passGo a rest

/-!  Theorems.  -/

/-- C1: the link-span matcher does NOT keep a working depth counter: on every
`"]]"` the source sets `depth = 0` outright (`_find_internal_links_raw`, and
the identical loop in `parse_wikitext`), so the span for `"[[A|[[B]]]]"` ends
just after the FIRST `"]]"` at offset 9, not after the final one at offset 11
as the claim requires; the `depth += 1` on `"[["` can never influence the
result. -/
theorem find_links_first_closer_ends_span :
    find_internal_links_raw (str "[[A|[[B]]]]") = [(0, 9)] ∧
    (str "[[A|[[B]]]]").length = 11 ∧
    listSlice (str "[[A|[[B]]]]") 0 9 = str "[[A|[[B]]" := by decide

/-- C5: `parse_internal_link` tests `link.startswith("[[") or
link.endswith("]]")` — `or`, not `and` — so `"[[abc"`, which does not end in
`"]]"`, is not rejected: two characters are sliced off each end and the
mangled link `("a", "a")` is returned, where the claim requires the
not-a-link signal.  Inputs with neither delimiter do return the signal, and
well-delimited inputs split on the first pipe as claimed. -/
theorem parse_internal_link_or_check_bug :
    parse_internal_link (str "[[abc") = .link ⟨str "a", str "a"⟩ ∧
    parse_internal_link (str "abc") = .notLink ∧
    parse_internal_link (str "[[A|B]]") = .link ⟨str "A", str "B"⟩ ∧
    parse_internal_link (str "[[A]]") = .link ⟨str "A", str "A"⟩ := by decide

/-- C4: `get_section_text` does not stop at the NEXT boundary heading: the
scan keeps overwriting `end_line` at every later qualifying heading (and
`start_line` at every later match), and the `elif` guard actually parses as
`(start_line is not None and top) or h.level <= level`, so with `top=False`
even headings before the match set `end_line`.  Hence for
`"==A==\nx\n==B==\ny\n==C==\nz"` the level-2 section `"A"` comes back as
`"x\n==B==\ny"` (the claim requires `"x"`), and when a level-2 heading
precedes the match (`"==B==\n==A==\nx"`) the stale `end_line` yields `""`
instead of `"x"`.  The not-found branch does raise as claimed. -/
theorem get_section_text_last_boundary_bug :
    get_section_text (str "==A==\nx\n==B==\ny\n==C==\nz") 2 (str "A") false
      = .ok (str "x\n==B==\ny") ∧
    get_section_text (str "==B==\n==A==\nx") 2 (str "A") false
      = .ok (str "") ∧
    get_section_text (str "==A==\nx\n===B===\ny\n===C===\nz") 2 (str "A") true
      = .ok (str "x\n===B===\ny") ∧
    get_section_text (str "==A==\nx") 2 (str "Z") false
      = .error (.notFound 2 (str "Z")) := by decide

/-- C2: `|` and `=` are structural separators only at brace depth 0 and link
depth 0, and `=` at most once per argument: `{{t|[[a|b]]}}` yields the single
positional argument `[[a|b]]` (the pipe inside the link is text),
`{{t|{{x|y}}}}` likewise keeps the nested template whole, and in
`{{t|a=b=c}}` only the first `=` splits, the second is ordinary text. -/
theorem parse_template_depth_separators :
    parse_template (str "\x7b\x7bt|[[a|b]]\x7d\x7d") = some
      (⟨str "\x7b\x7bt|[[a|b]]\x7d\x7d", str "t",
        [(TKey.num 1, str "[[a|b]]")]⟩, []) ∧
    parse_template (str "\x7b\x7bt|\x7b\x7bx|y\x7d\x7d\x7d\x7d") = some
      (⟨str "\x7b\x7bt|\x7b\x7bx|y\x7d\x7d\x7d\x7d", str "t",
        [(TKey.num 1, str "\x7b\x7bx|y\x7d\x7d")]⟩, []) ∧
    parse_template (str "\x7b\x7bt|a=b=c\x7d\x7d") = some
      (⟨str "\x7b\x7bt|a=b=c\x7d\x7d", str "t",
        [(TKey.name (str "a"), str "b=c")]⟩, []) := by decide

/-- C3 counterexample: for integer keys in increasing order but with a gap,
keys `[1, 3]`, `make_template` (interleaved mode) never triggers the
reconciliation pass (`3 > argindx` holds), so it emits `{{t|a|c}}`: re-parsing
yields the value of key 3 at position 2 and no position 3 at all, not the
claimed dense `1..3` with an empty string at the unreferenced position 2. -/
theorem make_template_gap_compaction_cex :
    make_template (str "t") [(TKey.num 1, str "a"), (TKey.num 3, str "c")]
      = str "\x7b\x7bt|a|c\x7d\x7d" ∧
    (parse_template (str "\x7b\x7bt|a|c\x7d\x7d")).map (fun r => r.1.args)
      = some [(TKey.num 1, str "a"), (TKey.num 2, str "c")] ∧
    ¬([(TKey.num 1, str "a"), (TKey.num 2, str "c")]
      = [(TKey.num 1, str "a"), (TKey.num 2, str ""),
        (TKey.num 3, str "c")]) := by decide

/-- C6 counterexample: `"==Title="` IS parsed as a heading (level 1, text
`"=Title"`): the loop in `parse_heading` only grows `eq` while BOTH ends show
`'='`, i.e. it computes the minimum of the two run lengths, and accepts
whenever that minimum is positive — it never compares the two runs for
equality. -/
theorem parse_heading_mismatched_runs_cex :
    parse_heading (str "==Title=") ≠ none := by decide

/-- C6 amended: `parse_heading` recognizes a single-line input as a heading
whenever both ends carry at least one `'='`; the level is the length of the
longest common run at both ends (the minimum of the two run lengths, further
bounded by half the line length and capped at 6), and the surplus `'='` of a
longer run stay in the text.  So `"==Title="` parses as level 1 with text
`"=Title"`, `"=Title=="` as level 1 with text `"Title="`, and runs of 7 are
treated as 6. -/
theorem parse_heading_min_run_semantics :
    parse_heading (str "==Title=") = some ⟨1, some (str "=Title")⟩ ∧
    parse_heading (str "=Title==") = some ⟨1, some (str "Title=")⟩ ∧
    parse_heading (str "=======X=======") = some ⟨6, some (str "=X=")⟩ ∧
    parse_heading (str "Title") = none := by decide

/-- C7 counterexample: rendering level 1 with heading text `"=="` gives the
line `"===="`, which `parse_heading` reads back as level 2 with empty text,
not level 1 with text `"=="`: a heading text that itself starts and ends with
`'='` merges into the delimiter runs. -/
theorem heading_roundtrip_cex :
    parse_heading (List.replicate 1 '=' ++ str "==" ++ List.replicate 1 '=')
      = some ⟨2, some []⟩ ∧
    ¬(some (⟨2, some []⟩ : Heading)
      = some ⟨1, some (strip (str "=="))⟩) := by decide

/-- C8 counterexample: an argument chunk without an eligible `=` is stored
verbatim, NOT trimmed: `parse_template` strips only named keys and values
(`k.strip()`, `v.strip()` happen in the `k is not None` branch only), so
`{{t| a }}` stores `" a "` under key 1 where the claim requires the trimmed
`"a"`. -/
theorem positional_value_untrimmed_cex :
    (parse_template (str "\x7b\x7bt| a \x7d\x7d")).map (fun r => r.1.args)
      = some [(TKey.num 1, str " a ")] ∧
    strip (str " a ") = str "a" ∧
    ¬(str " a " = str "a") := by decide



/-- Unfolding equation for one iteration of the `parse_heading` loop. -/
theorem headingEqGo_succ (text : Str) (fuel eq : Nat) :
    headingEqGo text (fuel + 1) eq
      = if eq < min (MAXIMUM_HEADING_LEVEL + 1) (text.length / 2) ∧
            text.getD eq ' ' = '=' ∧
            text.getD (text.length - 1 - eq) ' ' = '='
        then headingEqGo text fuel (eq + 1)
        else eq := rfl

/-- The `parse_heading` loop stops exactly at the first failing index. -/
theorem headingEqGo_run (text : Str) (L : Nat)
    (hrun : ∀ e, e < L →
      e < min (MAXIMUM_HEADING_LEVEL + 1) (text.length / 2) ∧
      text.getD e ' ' = '=' ∧ text.getD (text.length - 1 - e) ' ' = '=')
    (hstop : ¬(L < min (MAXIMUM_HEADING_LEVEL + 1) (text.length / 2) ∧
      text.getD L ' ' = '=' ∧ text.getD (text.length - 1 - L) ' ' = '=')) :
    ∀ fuel eq, eq ≤ L → L ≤ fuel + eq → headingEqGo text fuel eq = L := by
  intro fuel
  induction fuel with
  | zero =>
    intro eq hle hge
    have : eq = L := by omega
    simp [headingEqGo, this]
  | succ n ih =>
    intro eq hle hge
    rw [headingEqGo_succ]
    by_cases heq : eq = L
    · subst heq
      rw [if_neg hstop]
    · have hlt : eq < L := lt_of_le_of_ne hle heq
      rw [if_pos (hrun eq hlt)]
      exact ih (eq + 1) hlt (by omega)

/-- A position inside the leading `'='` run of a rendered heading line. -/
theorem rendered_getD_front (L : Nat) (t : Str) (e : Nat) (he : e < L) :
    (List.replicate L '=' ++ t ++ List.replicate L '=').getD e ' ' = '=' := by
  rw [List.getD_append _ _ _ _ (by simp; omega)]
  rw [List.getD_append _ _ _ _ (by simpa using he)]
  rw [List.getD_eq_getElem _ _ (by simpa using he)]
  exact List.getElem_replicate _ _

/-- A position inside the trailing `'='` run of a rendered heading line. -/
theorem rendered_getD_back (L : Nat) (t : Str) (e : Nat) (he : e < L) :
    (List.replicate L '=' ++ t ++ List.replicate L '=').getD
      ((List.replicate L '=' ++ t ++ List.replicate L '=').length - 1 - e) ' '
      = '=' := by
  have hlen : (List.replicate L '=' ++ t ++ List.replicate L '=').length
      = L + t.length + L := by simp; omega
  rw [hlen]
  rw [List.getD_append_right _ _ _ _ (by simp; omega)]
  rw [List.getD_eq_getElem _ _ (by simp; omega)]
  exact List.getElem_replicate _ _

/-- C7 as amended: rendering a heading of level `L` in 1..6 whose text has no
newline and does not BOTH start and end with `'='` and parsing it back
recovers the level and the trimmed text (a text with `'='` on only one side,
or on neither, round-trips; only a text with `'='` at both ends merges into
the delimiter runs). -/
theorem heading_roundtrip (L : Nat) (t : Str)
    (h1 : 1 ≤ L) (h2 : L ≤ MAXIMUM_HEADING_LEVEL)
    (h3 : '\n' ∉ t)
    (hends : ¬(t.head? = some '=' ∧ t.getLast? = some '=')) :
    parse_heading (List.replicate L '=' ++ t ++ List.replicate L '=')
      = some ⟨L, some (strip t)⟩ := by
  have hM : MAXIMUM_HEADING_LEVEL = 6 := rfl
  have hslen : (List.replicate L '=' ++ t ++ List.replicate L '=').length
      = L + t.length + L := by simp; omega
  have hnl : '\n' ∉ List.replicate L '=' ++ t ++ List.replicate L '=' := by
    intro hmem
    rcases List.mem_append.mp hmem with hmem | hmem
    · rcases List.mem_append.mp hmem with hmem | hmem
      · exact absurd (List.eq_of_mem_replicate hmem) (by decide)
      · exact h3 hmem
    · exact absurd (List.eq_of_mem_replicate hmem) (by decide)
  have hrun : ∀ e, e < L →
      e < min (MAXIMUM_HEADING_LEVEL + 1)
        ((List.replicate L '=' ++ t ++ List.replicate L '=').length / 2) ∧
      (List.replicate L '=' ++ t ++ List.replicate L '=').getD e ' ' = '=' ∧
      (List.replicate L '=' ++ t ++ List.replicate L '=').getD
        ((List.replicate L '=' ++ t ++ List.replicate L '=').length - 1 - e)
        ' ' = '=' := by
    intro e he
    refine ⟨?_, rendered_getD_front L t e he,
      rendered_getD_back L t e he⟩
    rw [hslen]
    omega
  have hstop : ¬(L < min (MAXIMUM_HEADING_LEVEL + 1)
        ((List.replicate L '=' ++ t ++ List.replicate L '=').length / 2) ∧
      (List.replicate L '=' ++ t ++ List.replicate L '=').getD L ' ' = '=' ∧
      (List.replicate L '=' ++ t ++ List.replicate L '=').getD
        ((List.replicate L '=' ++ t ++ List.replicate L '=').length - 1 - L)
        ' ' = '=') := by
    cases t with
    | nil =>
      rintro ⟨hbound, -, -⟩
      rw [hslen] at hbound
      simp only [List.length_nil] at hbound
      omega
    | cons c t' =>
      by_cases hc : c = '='
      · rintro ⟨-, -, hback⟩
        have hlast : (c :: t').getLast? ≠ some '=' := by
          intro hl
          exact hends ⟨by simp [hc], hl⟩
        apply hlast
        rw [hslen] at hback
        rw [List.getD_append _ _ _ _ (by simp; omega)] at hback
        rw [List.getD_append_right _ _ _ _ (by simp; omega)] at hback
        have hidx : L + (c :: t').length + L - 1 - L
            - (List.replicate L '=').length = t'.length := by
          simp
          omega
        rw [hidx] at hback
        rw [List.getD_eq_getElem _ _ (by simp)] at hback
        rw [List.getLast?_eq_getElem?]
        simp only [List.length_cons, Nat.add_sub_cancel]
        rw [List.getElem?_eq_getElem (by simp)]
        rw [hback]
      · rintro ⟨-, hmid, -⟩
        apply hc
        rw [List.getD_append _ _ _ _ (by simp)] at hmid
        rw [List.getD_append_right _ _ _ _ (by simp)] at hmid
        simpa using hmid
  have hEq : headingEqGo (List.replicate L '=' ++ t ++ List.replicate L '=')
      (MAXIMUM_HEADING_LEVEL + 1) 0 = L :=
    headingEqGo_run _ L hrun hstop _ 0 (by omega) (by omega)
  simp only [parse_heading]
  rw [if_neg hnl, hEq]
  rw [if_pos (show L > 0 by omega)]
  have hmin : min L 6 = L := Nat.min_eq_left (by omega)
  rw [hmin, hslen]
  have hsub : L + t.length + L - L = L + t.length := by omega
  rw [hsub]
  have hslice : listSlice (List.replicate L '=' ++ t ++ List.replicate L '=')
      L (L + t.length) = t := by
    unfold listSlice
    rw [List.take_left' (by simp)]
    rw [List.drop_left' (by simp)]
  rw [hslice]

/-- Witness for the amended C7 at level 2 and heading text `" Title "`. -/
theorem heading_roundtrip_witness :
    parse_heading (List.replicate 2 '=' ++ str " Title " ++
        List.replicate 2 '=')
      = some ⟨2, some (strip (str " Title "))⟩ :=
  heading_roundtrip 2 (str " Title ") (by decide) (by decide) (by decide)
    (by decide)

/-- C9: a duplicate named key overwrites in place — updating an existing key
of the ordered mapping leaves the key sequence (hence the entry's position)
unchanged — parsing fails only on missing `{{`/`}}` delimiters, never because
of a duplicate, and `{{t|x=1|x=2}}` parses to the single argument `x = "2"`
with exactly one diagnostic (carrying the new value `"2"` and the old
`"1"`). -/
theorem parse_template_duplicate_key_semantics :
    (∀ m k v, m.any (fun p => decide (p.1 = k)) = true →
      (odInsert m k v).map Prod.fst = m.map Prod.fst) ∧
    (∀ text, parse_template text = none ↔
      ¬((str "\x7b\x7b").isPrefixOf text ∧ (str "\x7d\x7d").isSuffixOf text)) ∧
    parse_template (str "\x7b\x7bt|x=1|x=2\x7d\x7d") = some
      (⟨str "\x7b\x7bt|x=1|x=2\x7d\x7d", str "t",
        [(TKey.name (str "x"), str "2")]⟩,
        [(str "x", str "2", str "1")]) := by
  refine ⟨?_, ?_, by decide⟩
  · intro m k v h
    unfold odInsert
    rw [if_pos h, List.map_map]
    apply List.map_congr_left
    intro p _
    by_cases hp : p.1 = k
    · simp [hp]
    · simp [hp]
  · intro text
    unfold parse_template
    split
    · rename_i h
      simp [h]
    · rename_i h
      exact iff_of_true rfl h

/-- Witness for C9: updating the existing key `"x"` keeps the key list, and
the delimiter characterization instantiated at a non-template text. -/
theorem parse_template_duplicate_key_semantics_witness :
    (odInsert [(TKey.name (str "x"), str "1")] (TKey.name (str "x"))
        (str "2")).map Prod.fst
      = [(TKey.name (str "x"), str "1")].map Prod.fst ∧
    (parse_template (str "ab") = none ↔
      ¬((str "\x7b\x7b").isPrefixOf (str "ab") ∧
        (str "\x7d\x7d").isSuffixOf (str "ab"))) :=
  ⟨parse_template_duplicate_key_semantics.1 _ _ (str "2") (by decide),
    parse_template_duplicate_key_semantics.2.1 (str "ab")⟩

/-- Lemma: `intEntries` distributes over append. -/
theorem intEntries_append (a b : List (TKey × Str)) :
    intEntries (a ++ b) = intEntries a ++ intEntries b :=
  List.filterMap_append a b _

/-- Updating a named key in place leaves the positional entries unchanged. -/
theorem intEntries_map_update_name (m : List (TKey × Str)) (s v : Str) :
    intEntries (m.map
      (fun p => if p.1 = TKey.name s then (TKey.name s, v) else p))
      = intEntries m := by
  induction m with
  | nil => rfl
  | cons p rest ih =>
    rcases p with ⟨k, pv⟩
    cases k with
    | num n =>
      simp only [List.map_cons]
      rw [if_neg (by simp)]
      simp only [intEntries, List.filterMap_cons] at ih ⊢
      simp [ih]
    | name t =>
      simp only [List.map_cons]
      by_cases h : (TKey.name t : TKey) = TKey.name s
      · rw [if_pos h]
        simp only [intEntries, List.filterMap_cons] at ih ⊢
        simpa using ih
      · rw [if_neg h]
        simp only [intEntries, List.filterMap_cons] at ih ⊢
        simpa using ih

/-- Lemma: `odInsert` with an existing named key preserves the positional
entries. -/
theorem intEntries_odInsert_name (m : List (TKey × Str)) (s v : Str) :
    intEntries (odInsert m (TKey.name s) v) = intEntries m := by
  unfold odInsert
  split
  · exact intEntries_map_update_name m s v
  · rw [intEntries_append]
    simp [intEntries]

/-- Presence of a positional key in the mapping, read off `intEntries`. -/
theorem num_key_mem_iff (m : List (TKey × Str)) (j : Nat) :
    (m.any (fun p => decide (p.1 = TKey.num j)) = true)
      ↔ j ∈ (intEntries m).map Prod.fst := by
  induction m with
  | nil => simp [intEntries]
  | cons p rest ih =>
    rcases p with ⟨k, pv⟩
    cases k with
    | num n =>
      simp only [List.any_cons, intEntries, List.filterMap_cons] at ih ⊢
      by_cases h : n = j
      · simp [h]
      · simp [h, ih, Ne.symm h]
    | name t =>
      simp only [List.any_cons, intEntries, List.filterMap_cons] at ih ⊢
      simpa using ih

/-- A fresh key is appended at the end by `odInsert`. -/
theorem odInsert_fresh (m : List (TKey × Str)) (k : TKey) (v : Str)
    (h : m.any (fun p => decide (p.1 = k)) = false) :
    odInsert m k v = m ++ [(k, v)] := by
  unfold odInsert
  rw [if_neg (by simp [h])]

/-- Lemma: `numberFrom` over an append. -/
theorem numberFrom_append (n : Nat) (xs ys : List Str) :
    numberFrom n (xs ++ ys)
      = numberFrom n xs ++ numberFrom (n + xs.length) ys := by
  induction xs generalizing n with
  | nil => simp [numberFrom]
  | cons x xs ih =>
    have h2 : n + 1 + xs.length = n + (x :: xs).length := by simp; omega
    calc numberFrom n (x :: xs ++ ys)
        = (n, x) :: numberFrom (n + 1) (xs ++ ys) := rfl
      _ = (n, x) :: (numberFrom (n + 1) xs
            ++ numberFrom (n + 1 + xs.length) ys) := by rw [ih]
      _ = numberFrom n (x :: xs) ++ numberFrom (n + (x :: xs).length) ys := by
            rw [h2]
            rfl

/-- The keys of `numberFrom` are a consecutive integer range. -/
theorem numberFrom_map_fst (n : Nat) (vs : List Str) :
    (numberFrom n vs).map Prod.fst = List.range' n vs.length := by
  induction vs generalizing n with
  | nil => rfl
  | cons v vs ih => simp [numberFrom, List.range'_succ, ih]

/-- The values of `numberFrom` are the original list. -/
theorem numberFrom_map_snd (n : Nat) (vs : List Str) :
    (numberFrom n vs).map Prod.snd = vs := by
  induction vs generalizing n with
  | nil => rfl
  | cons v vs ih => simp [numberFrom, ih]

/-- Lemma: `numberFrom` preserves length. -/
theorem numberFrom_length (n : Nat) (vs : List Str) :
    (numberFrom n vs).length = vs.length := by
  induction vs generalizing n with
  | nil => rfl
  | cons v vs ih => simp [numberFrom, ih]

/-- Membership of a key in `numberFrom`. -/
theorem mem_numberFrom_map_fst (n j : Nat) (vs : List Str) :
    j ∈ (numberFrom n vs).map Prod.fst ↔ n ≤ j ∧ j < n + vs.length := by
  rw [numberFrom_map_fst, List.mem_range'_1]

/-- The argument-building loop of `parse_template` stores the unlabeled
values, in order and verbatim, under the consecutive integer keys continuing
the positional keys already present; named chunks never disturb them. -/
theorem buildArgsGo_intEntries (rest : List (Option Str × Str)) :
    ∀ (vs : List Str) (parsed : List (TKey × Str)) (warns : List Diag),
      intEntries parsed = numberFrom 1 vs →
      intEntries (buildArgsGo rest vs.length parsed warns).1
        = numberFrom 1 (vs ++ noneVals rest) := by
  induction rest with
  | nil =>
    intro vs parsed warns h
    simpa [buildArgsGo, noneVals] using h
  | cons p rest ih =>
    intro vs parsed warns h
    rcases p with ⟨k?, v⟩
    cases k? with
    | some k =>
      simp only [buildArgsGo]
      rw [ih vs _ _ (by rw [intEntries_odInsert_name]; exact h)]
      simp [noneVals, List.filterMap_cons]
    | none =>
      simp only [buildArgsGo]
      have hmem : ¬ (vs.length + 1) ∈ (intEntries parsed).map Prod.fst := by
        rw [h, mem_numberFrom_map_fst]
        omega
      have hfresh : parsed.any
          (fun p => decide (p.1 = TKey.num (vs.length + 1))) = false := by
        rw [← Bool.not_eq_true, num_key_mem_iff]
        exact hmem
      rw [odInsert_fresh _ _ _ hfresh]
      have h' : intEntries (parsed ++ [(TKey.num (vs.length + 1), v)])
          = numberFrom 1 (vs ++ [v]) := by
        rw [intEntries_append, h, numberFrom_append]
        have h1 : 1 + vs.length = vs.length + 1 := by omega
        rw [h1]
        rfl
      have hrec := ih (vs ++ [v]) _ warns h'
      have hlen : (vs ++ [v]).length = vs.length + 1 := by simp
      rw [hlen] at hrec
      rw [hrec, List.append_assoc, List.singleton_append]
      simp [noneVals, List.filterMap_cons]

/-- The positional entries of any successfully parsed template are the
unlabeled chunk values of its invocation, numbered consecutively from 1. -/
theorem parse_template_intEntries (text : Str) (tpl : Template)
    (warns : List Diag) (h : parse_template text = some (tpl, warns)) :
    intEntries tpl.args = numberFrom 1
      (noneVals ((templateChunks
        (listSlice text 2 (text.length - 2))).drop 1)) := by
  simp only [parse_template] at h
  split at h
  · rw [Option.some.injEq, Prod.mk.injEq] at h
    obtain ⟨h1, -⟩ := h
    subst h1
    have := buildArgsGo_intEntries
      ((templateChunks (listSlice text 2 (text.length - 2))).drop 1)
      [] [] [] rfl
    simpa using this
  · exact absurd h (by simp)

/-- Lemma: `find?` for a positional key factors through `intEntries`. -/
theorem find_num_intEntries (m : List (TKey × Str)) (j : Nat) :
    m.find? (fun p => decide (p.1 = TKey.num j))
      = ((intEntries m).find? (fun q => decide (q.1 = j))).map
        (fun q => (TKey.num q.1, q.2)) := by
  induction m with
  | nil => rfl
  | cons p rest ih =>
    rcases p with ⟨k, pv⟩
    cases k with
    | num n =>
      by_cases h : n = j
      · subst h
        simp [intEntries, List.filterMap_cons]
      · simp [intEntries, List.filterMap_cons, h, ih]
    | name t =>
      simpa [intEntries, List.filterMap_cons] using ih

/-- Lemma: `find?` in `numberFrom` at the key just past a given prefix. -/
theorem numberFrom_find_at (pre : List Str) :
    ∀ (n j : Nat) (v : Str) (vs : List Str), j = n + pre.length →
      (numberFrom n (pre ++ v :: vs)).find? (fun q => decide (q.1 = j))
        = some (j, v) := by
  induction pre with
  | nil =>
    intro n j v vs hj
    simp only [List.length_nil, Nat.add_zero] at hj
    subst hj
    simp [numberFrom]
  | cons p pre ih =>
    intro n j v vs hj
    simp only [List.length_cons] at hj
    have hstep : numberFrom n ((p :: pre) ++ v :: vs)
        = (n, p) :: numberFrom (n + 1) (pre ++ v :: vs) := rfl
    rw [hstep]
    rw [List.find?_cons_of_neg _ (by simp; omega)]
    exact ih (n + 1) j v vs (by omega)

/-- The extraction loop returns the dense positional values. -/
theorem extractPositionalGo_run (m : List (TKey × Str)) :
    ∀ (vs pre : List Str) (fuel : Nat),
      intEntries m = numberFrom 1 (pre ++ vs) → vs.length < fuel →
      extractPositionalGo m fuel (pre.length + 1) = vs := by
  intro vs
  induction vs with
  | nil =>
    intro pre fuel h hf
    cases fuel with
    | zero => omega
    | succ f =>
      simp only [extractPositionalGo]
      rw [if_neg (by
        rw [num_key_mem_iff, h, List.append_nil, mem_numberFrom_map_fst]
        omega)]
  | cons v vs ih =>
    intro pre fuel h hf
    cases fuel with
    | zero => omega
    | succ f =>
      simp only [extractPositionalGo]
      rw [if_pos (by
        rw [num_key_mem_iff, h, mem_numberFrom_map_fst]
        simp
        omega)]
      have hlook : odLookup m (TKey.num (pre.length + 1)) = v := by
        unfold odLookup
        rw [find_num_intEntries, h,
          numberFrom_find_at pre 1 (pre.length + 1) v vs (by omega)]
        rfl
      rw [hlook]
      have hrec := ih (pre ++ [v]) f
        (by rw [List.append_assoc, List.singleton_append]; exact h)
        (by simp at hf; omega)
      have hlen : (pre ++ [v]).length + 1 = pre.length + 1 + 1 := by simp
      rw [hlen] at hrec
      rw [hrec]

/-- Lemma: `extract_positional_args` under the dense-keys invariant. -/
theorem extract_positional_args_eq (m : List (TKey × Str)) (vs : List Str)
    (h : intEntries m = numberFrom 1 vs) :
    extract_positional_args m = vs := by
  have h1 : (intEntries m).length ≤ m.length := List.length_filterMap_le _ _
  rw [h, numberFrom_length] at h1
  have := extractPositionalGo_run m vs [] (m.length + 1)
    (by simpa using h) (by omega)
  simpa [extract_positional_args] using this

/-- C10: for every template returned by `parse_template`, the integer keys of
`args` are exactly the contiguous range `1..n` in increasing order (`n` the
number of unlabeled arguments of the invocation), so `get_positional_args`
returns `None` followed by all `n` positional values in order. -/
theorem parse_template_positional_invariant (text : Str) (tpl : Template)
    (warns : List Diag) (h : parse_template text = some (tpl, warns)) :
    (intEntries tpl.args).map Prod.fst
      = List.range' 1 (intEntries tpl.args).length ∧
    intEntries tpl.args = numberFrom 1
      (noneVals ((templateChunks
        (listSlice text 2 (text.length - 2))).drop 1)) ∧
    get_positional_args tpl
      = none :: ((intEntries tpl.args).map Prod.snd).map some := by
  have hIE := parse_template_intEntries text tpl warns h
  refine ⟨?_, hIE, ?_⟩
  · rw [hIE, numberFrom_map_fst, numberFrom_length]
  · unfold get_positional_args
    rw [extract_positional_args_eq tpl.args _ hIE, hIE, numberFrom_map_snd]

/-- Witness for C10 at the parse of `{{t|a|x=1|b}}`: integer keys `[1, 2]`
interleaved with the named key, and the positional values extracted in
order behind the dummy `none`. -/
theorem parse_template_positional_invariant_witness :
    (intEntries (Template.mk (str "\x7b\x7bt|a|x=1|b\x7d\x7d") (str "t")
        [(TKey.num 1, str "a"), (TKey.name (str "x"), str "1"),
          (TKey.num 2, str "b")]).args).map Prod.fst
      = List.range' 1 (intEntries (Template.mk (str "\x7b\x7bt|a|x=1|b\x7d\x7d")
        (str "t") [(TKey.num 1, str "a"), (TKey.name (str "x"), str "1"),
          (TKey.num 2, str "b")]).args).length ∧
    intEntries (Template.mk (str "\x7b\x7bt|a|x=1|b\x7d\x7d") (str "t")
        [(TKey.num 1, str "a"), (TKey.name (str "x"), str "1"),
          (TKey.num 2, str "b")]).args
      = numberFrom 1 (noneVals ((templateChunks
        (listSlice (str "\x7b\x7bt|a|x=1|b\x7d\x7d") 2
          ((str "\x7b\x7bt|a|x=1|b\x7d\x7d").length - 2))).drop 1)) ∧
    get_positional_args (Template.mk (str "\x7b\x7bt|a|x=1|b\x7d\x7d")
        (str "t") [(TKey.num 1, str "a"), (TKey.name (str "x"), str "1"),
          (TKey.num 2, str "b")])
      = none :: ((intEntries (Template.mk (str "\x7b\x7bt|a|x=1|b\x7d\x7d")
        (str "t") [(TKey.num 1, str "a"), (TKey.name (str "x"), str "1"),
          (TKey.num 2, str "b")]).args).map Prod.snd).map some :=
  parse_template_positional_invariant (str "\x7b\x7bt|a|x=1|b\x7d\x7d")
    (Template.mk (str "\x7b\x7bt|a|x=1|b\x7d\x7d") (str "t")
      [(TKey.num 1, str "a"), (TKey.name (str "x"), str "1"),
        (TKey.num 2, str "b")]) [] (by decide)

/-- C8 as amended: an argument chunk with an eligible `=` is stored with the
trimmed text before it as key and the trimmed text after it as value, while a
chunk without an eligible `=` is stored VERBATIM (not trimmed) under the
integer key equal to one plus the number of unlabeled values stored so far in
the invocation, independently of any explicit integer-like (string) keys:
in general the positional entries of any parse are exactly the unlabeled
chunk values numbered from 1, and concretely `{{t| k = v |w}}` stores
`k = v` trimmed and `w` at key 1, `{{t|5=x|y}}` stores `x` under the STRING
key `"5"` and `y` under integer key 1, and `{{t| a }}` stores `" a "`
verbatim at key 1. -/
theorem parse_template_argument_storage :
    (∀ text tpl warns, parse_template text = some (tpl, warns) →
      intEntries tpl.args = numberFrom 1
        (noneVals ((templateChunks
          (listSlice text 2 (text.length - 2))).drop 1))) ∧
    (parse_template (str "\x7b\x7bt| k = v |w\x7d\x7d")).map
        (fun r => r.1.args)
      = some [(TKey.name (str "k"), str "v"), (TKey.num 1, str "w")] ∧
    (parse_template (str "\x7b\x7bt|5=x|y\x7d\x7d")).map (fun r => r.1.args)
      = some [(TKey.name (str "5"), str "x"), (TKey.num 1, str "y")] ∧
    (parse_template (str "\x7b\x7bt| a \x7d\x7d")).map (fun r => r.1.args)
      = some [(TKey.num 1, str " a ")] :=
  ⟨parse_template_intEntries, by decide, by decide, by decide⟩

/-- Witness for C8's universal clause at the parse of `{{t|u|k=w}}`. -/
theorem parse_template_argument_storage_witness :
    intEntries (Template.mk (str "\x7b\x7bt|u|k=w\x7d\x7d") (str "t")
        [(TKey.num 1, str "u"), (TKey.name (str "k"), str "w")]).args
      = numberFrom 1 (noneVals ((templateChunks
        (listSlice (str "\x7b\x7bt|u|k=w\x7d\x7d") 2
          ((str "\x7b\x7bt|u|k=w\x7d\x7d").length - 2))).drop 1)) :=
  parse_template_argument_storage.1 (str "\x7b\x7bt|u|k=w\x7d\x7d")
    (Template.mk (str "\x7b\x7bt|u|k=w\x7d\x7d") (str "t")
      [(TKey.num 1, str "u"), (TKey.name (str "k"), str "w")]) []
    (by decide)

/-- Lemma: a needle whose head differs from the first character does not
match at that position. -/
theorem not_isPrefixOf_cons (a b : Char) (l r : Str) (h : a ≠ b) :
    ¬((a :: l).isPrefixOf (b :: r) = true) := fun hp =>
  h (List.cons_prefix_cons.mp (List.isPrefixOf_iff_prefix.mp hp)).1

/-- Lemma: a markup-free string has only non-special characters. -/
theorem plainStrB_forall (s : Str) (h : plainStrB s = true) :
    ∀ c ∈ s, specialChar c = false := by
  intro c hc
  have h2 := List.all_eq_true.mp h c hc
  simpa using h2

/-- Lemma: no special-headed needle matches at a non-special character. -/
theorem find?_safe_none (needles : List Str) (c : Char) (r : Str)
    (hn : ∀ n ∈ needles, ∃ h tl, n = h :: tl ∧ specialChar h = true)
    (hc : specialChar c = false) :
    needles.find? (fun n => n.isPrefixOf (c :: r)) = none := by
  induction needles with
  | nil => rfl
  | cons n ns ih =>
    obtain ⟨h, tl, rfl, hh⟩ := hn n (List.mem_cons_self _ _)
    rw [List.find?_cons_of_neg]
    · exact ih (fun m hm => hn m (List.mem_cons_of_mem _ hm))
    · refine not_isPrefixOf_cons h c tl r (fun he => ?_)
      rw [he, hc] at hh
      exact absurd hh (by simp)

/-- Lemma: the scanner search skips over markup-free text. -/
theorem minfindGo_plain (needles : List Str)
    (hn : ∀ n ∈ needles, ∃ h tl, n = h :: tl ∧ specialChar h = true) :
    ∀ (plain : Str), (∀ c ∈ plain, specialChar c = false) →
    ∀ (s : Str) (pos : Nat),
      minfindGo needles (plain ++ s) pos
        = minfindGo needles s (pos + plain.length) := by
  intro plain
  induction plain with
  | nil => intro _ s pos; simp
  | cons c p ih =>
    intro hp s pos
    have hstep : minfindGo needles (c :: (p ++ s)) pos
        = minfindGo needles (p ++ s) (pos + 1) := by
      simp only [minfindGo]
      rw [find?_safe_none needles c (p ++ s) hn
        (hp c (List.mem_cons_self _ _))]
    have harith : pos + (c :: p).length = pos + 1 + p.length := by
      simp
      omega
    rw [List.cons_append, hstep,
      ih (fun x hx => hp x (List.mem_cons_of_mem _ hx)) s (pos + 1), harith]

/-- Lemma: the needle set of the template scanner at both depths 0, no `=`
seen in this argument, and at least one chunk recorded. -/
theorem tscanNeedles_ne (pars : List (Option Str × Str)) (h : pars ≠ []) :
    tscanNeedles 0 0 0 pars
      = [['{', '{'], ['}', '}'], ['[', '['], [']', ']'], ['|'], ['=']] := by
  simp [tscanNeedles, h, str]

/-- Lemma: the needle set of the template scanner before the first chunk. -/
theorem tscanNeedles_start :
    tscanNeedles 0 0 0 []
      = [['{', '{'], ['}', '}'], ['[', '['], [']', ']'], ['|']] := by
  decide

/-- Lemma: the needle set of the template scanner after the `=` of a chunk. -/
theorem tscanNeedles_noeq (pars : List (Option Str × Str)) :
    tscanNeedles 0 0 1 pars
      = [['{', '{'], ['}', '}'], ['[', '['], [']', ']'], ['|']] := by
  simp [tscanNeedles, str]

/-- Lemma: all scanner needles start with a special character (5-needle
set). -/
theorem needles5_heads :
    ∀ n ∈ [['{', '{'], ['}', '}'], ['[', '['], [']', ']'], ['|']],
      ∃ h tl, n = h :: tl ∧ specialChar h = true := by
  intro n hn
  simp only [List.mem_cons, List.not_mem_nil, or_false] at hn
  rcases hn with rfl | rfl | rfl | rfl | rfl
  · exact ⟨'{', ['{'], rfl, rfl⟩
  · exact ⟨'}', ['}'], rfl, rfl⟩
  · exact ⟨'[', ['['], rfl, rfl⟩
  · exact ⟨']', [']'], rfl, rfl⟩
  · exact ⟨'|', [], rfl, rfl⟩

/-- Lemma: all scanner needles start with a special character (6-needle
set). -/
theorem needles6_heads :
    ∀ n ∈ [['{', '{'], ['}', '}'], ['[', '['], [']', ']'], ['|'], ['=']],
      ∃ h tl, n = h :: tl ∧ specialChar h = true := by
  intro n hn
  simp only [List.mem_cons, List.not_mem_nil, or_false] at hn
  rcases hn with rfl | rfl | rfl | rfl | rfl | rfl
  · exact ⟨'{', ['{'], rfl, rfl⟩
  · exact ⟨'}', ['}'], rfl, rfl⟩
  · exact ⟨'[', ['['], rfl, rfl⟩
  · exact ⟨']', [']'], rfl, rfl⟩
  · exact ⟨'|', [], rfl, rfl⟩
  · exact ⟨'=', [], rfl, rfl⟩

/-- Lemma: the 5-needle set matches a pipe at a pipe. -/
theorem find5_pipe (r : Str) :
    [['{', '{'], ['}', '}'], ['[', '['], [']', ']'], ['|']].find?
      (fun n => n.isPrefixOf ('|' :: r)) = some ['|'] := by
  simp only [List.find?_cons, List.isPrefixOf_cons₂,
    (by decide : (('{' : Char) == '|') = false),
    (by decide : (('}' : Char) == '|') = false),
    (by decide : (('[' : Char) == '|') = false),
    (by decide : ((']' : Char) == '|') = false),
    (by decide : (('|' : Char) == '|') = true),
    Bool.false_and, Bool.true_and, List.isPrefixOf_nil_left]

/-- Lemma: the 6-needle set matches a pipe at a pipe. -/
theorem find6_pipe (r : Str) :
    [['{', '{'], ['}', '}'], ['[', '['], [']', ']'], ['|'], ['=']].find?
      (fun n => n.isPrefixOf ('|' :: r)) = some ['|'] := by
  simp only [List.find?_cons, List.isPrefixOf_cons₂,
    (by decide : (('{' : Char) == '|') = false),
    (by decide : (('}' : Char) == '|') = false),
    (by decide : (('[' : Char) == '|') = false),
    (by decide : ((']' : Char) == '|') = false),
    (by decide : (('|' : Char) == '|') = true),
    Bool.false_and, Bool.true_and, List.isPrefixOf_nil_left]

/-- Lemma: the 6-needle set matches an equals sign at an equals sign. -/
theorem find6_eq (r : Str) :
    [['{', '{'], ['}', '}'], ['[', '['], [']', ']'], ['|'], ['=']].find?
      (fun n => n.isPrefixOf ('=' :: r)) = some ['='] := by
  simp only [List.find?_cons, List.isPrefixOf_cons₂,
    (by decide : (('{' : Char) == '=') = false),
    (by decide : (('}' : Char) == '=') = false),
    (by decide : (('[' : Char) == '=') = false),
    (by decide : ((']' : Char) == '=') = false),
    (by decide : (('|' : Char) == '=') = false),
    (by decide : (('=' : Char) == '=') = true),
    Bool.false_and, Bool.true_and, List.isPrefixOf_nil_left]

/-- Lemma: slicing out the middle segment. -/
theorem listSlice_middle (pre mid post : Str) :
    listSlice (pre ++ (mid ++ post)) pre.length (pre.length + mid.length)
      = mid := by
  unfold listSlice
  rw [List.take_append, List.take_left' rfl, List.drop_left' rfl]

/-- Lemma: slicing out the middle segment, with flexible index forms. -/
theorem listSlice_middle' (pre mid post : Str) (a b : Nat)
    (ha : a = pre.length) (hb : b = pre.length + mid.length) :
    listSlice (pre ++ (mid ++ post)) a b = mid := by
  subst ha
  subst hb
  exact listSlice_middle pre mid post

theorem tscan_chunks (inner : Str) :
    ∀ (cs : List (TKey × Str)) (cur : TKey × Str) (pre : Str)
      (pars : List (Option Str × Str)) (fuel : Nat),
      inner = pre ++ (chunkBody cur ++ chunkTexts cs) →
      (plainKeyB cur.1 && plainStrB cur.2) = true →
      plainArgsB cs = true →
      pars ≠ [] →
      (chunkBody cur ++ chunkTexts cs).length + 1 ≤ fuel →
      (tscanGo inner fuel 0 0 pre.length pre.length 0 pars none).1
          ++ [((tscanGo inner fuel 0 0 pre.length pre.length 0 pars none).2.1,
            inner.drop
              (tscanGo inner fuel 0 0 pre.length pre.length 0 pars
                none).2.2)]
        = pars ++ parsedChunks (cur :: cs) := by
  intro cs
  induction cs with
  | nil =>
    intro cur pre pars fuel hin hplc hplcs hpars hfuel
    obtain ⟨k, v⟩ := cur
    cases k with
    | num n =>
      have hv : plainStrB v = true := by simpa [plainKeyB] using hplc
      cases fuel with
      | zero => omega
      | succ f =>
        have hdrop : inner.drop pre.length = v ++ [] := by
          rw [hin]
          exact List.drop_left _ _
        have hrun : tscanGo inner (f + 1) 0 0 pre.length pre.length 0 pars
            none = (pars, none, pre.length) := by
          simp only [tscanGo]
          rw [tscanNeedles_ne pars hpars]
          simp only [minfind]
          rw [hdrop, minfindGo_plain _ needles6_heads v
            (plainStrB_forall v hv) [] pre.length]
          rfl
        rw [hrun]
        rw [hdrop]
        simp [parsedChunks, parsedChunk]
    | name key =>
      simp only [plainKeyB, Bool.and_eq_true] at hplc
      obtain ⟨hk, hv⟩ := hplc
      simp only [chunkBody, chunkTexts, List.append_nil] at hin hfuel
      cases fuel with
      | zero => simp at hfuel
      | succ f =>
      cases f with
      | zero => simp at hfuel
      | succ f2 =>
      have hdrop : inner.drop pre.length = key ++ ('=' :: v) := by
        rw [hin]
        exact List.drop_left _ _
      have hrun1 : tscanGo inner (f2 + 1 + 1) 0 0 pre.length pre.length 0
          pars none
          = tscanGo inner (f2 + 1) 0 0 (pre.length + key.length + 1)
            (pre.length + key.length + 1) 1 pars (some key) := by
        simp only [tscanGo]
        rw [tscanNeedles_ne pars hpars]
        simp only [minfind]
        rw [hdrop, minfindGo_plain _ needles6_heads key
          (plainStrB_forall key hk) ('=' :: v) pre.length]
        simp only [minfindGo]
        rw [find6_eq]
        dsimp only
        rw [hin]
        simp [str]
        rw [listSlice_middle]
      have hin2 : inner = (pre ++ (key ++ ['='])) ++ (v ++ []) := by
        rw [hin]
        simp
      have hdrop2 : inner.drop (pre.length + key.length + 1) = v ++ [] := by
        rw [hin2]
        exact List.drop_left' (by simp; omega)
      have hrun2 : tscanGo inner (f2 + 1) 0 0 (pre.length + key.length + 1)
          (pre.length + key.length + 1) 1 pars (some key)
          = (pars, some key, pre.length + key.length + 1) := by
        simp only [tscanGo]
        rw [tscanNeedles_noeq pars]
        simp only [minfind]
        rw [hdrop2, minfindGo_plain _ needles5_heads v
          (plainStrB_forall v hv) [] (pre.length + key.length + 1)]
        rfl
      rw [hrun1, hrun2, hdrop2]
      simp [parsedChunks, parsedChunk]
  | cons c2 cs ih =>
    intro cur pre pars fuel hin hplc hplcs hpars hfuel
    simp only [plainArgsB, List.all_cons, Bool.and_eq_true] at hplcs
    obtain ⟨⟨hk2, hv2⟩, hcs⟩ := hplcs
    have hplc2 : (plainKeyB c2.1 && plainStrB c2.2) = true := by
      simp [hk2, hv2]
    have hplcs2 : plainArgsB cs = true := hcs
    obtain ⟨k, v⟩ := cur
    cases k with
    | num n =>
      have hv : plainStrB v = true := by simpa [plainKeyB] using hplc
      cases fuel with
      | zero => omega
      | succ f =>
        have hdrop : inner.drop pre.length
            = v ++ ('|' :: (chunkBody c2 ++ chunkTexts cs)) := by
          rw [hin, List.drop_left]
          simp [chunkBody, chunkTexts, chunkText]
        have hslice : listSlice inner pre.length (pre.length + v.length)
            = v := by
          rw [(show inner
              = pre ++ (v ++ ('|' :: (chunkBody c2 ++ chunkTexts cs))) from by
            rw [hin]; simp [chunkBody, chunkTexts, chunkText])]
          exact listSlice_middle pre v _
        have hrun : tscanGo inner (f + 1) 0 0 pre.length pre.length 0 pars
            none
            = tscanGo inner f 0 0 (pre.length + v.length + 1)
              (pre.length + v.length + 1) 0 (pars ++ [(none, v)]) none := by
          simp only [tscanGo]
          rw [tscanNeedles_ne pars hpars]
          simp only [minfind]
          rw [hdrop, minfindGo_plain _ needles6_heads v
            (plainStrB_forall v hv) ('|' :: (chunkBody c2 ++ chunkTexts cs))
            pre.length]
          simp only [minfindGo]
          rw [find6_pipe]
          dsimp only
          rw [hslice]
          simp [str]
        have hfl : (chunkBody c2 ++ chunkTexts cs).length + 1 ≤ f := by
          simp only [chunkBody, chunkTexts, chunkText, List.length_append,
            List.length_cons] at hfuel ⊢
          omega
        have hin2 : inner
            = (pre ++ (v ++ ['|'])) ++ (chunkBody c2 ++ chunkTexts cs) := by
          rw [hin]
          simp [chunkBody, chunkTexts, chunkText]
        have hres := ih c2 (pre ++ (v ++ ['|'])) (pars ++ [(none, v)]) f hin2
          hplc2 hplcs2 (by simp) hfl
        rw [hrun,
          (show pre.length + v.length + 1 = (pre ++ (v ++ ['|'])).length from
            by simp; omega),
          hres]
        simp [parsedChunks, parsedChunk]
    | name key =>
      simp only [plainKeyB, Bool.and_eq_true] at hplc
      obtain ⟨hk, hv⟩ := hplc
      cases fuel with
      | zero =>
        simp only [chunkBody, chunkTexts, chunkText, List.length_append,
          List.length_cons] at hfuel
        omega
      | succ f =>
      cases f with
      | zero =>
        simp only [chunkBody, chunkTexts, chunkText, List.length_append,
          List.length_cons] at hfuel
        omega
      | succ f2 =>
      have hdrop : inner.drop pre.length
          = key ++ ('=' :: (v ++ ('|' :: (chunkBody c2 ++ chunkTexts cs))))
          := by
        rw [hin, List.drop_left]
        simp [chunkBody, chunkTexts, chunkText]
      have hslice1 : listSlice inner pre.length (pre.length + key.length)
          = key := by
        rw [(show inner = pre ++ (key
            ++ ('=' :: (v ++ ('|' :: (chunkBody c2 ++ chunkTexts cs)))))
          from by rw [hin]; simp [chunkBody, chunkTexts, chunkText])]
        exact listSlice_middle pre key _
      have hrun1 : tscanGo inner (f2 + 1 + 1) 0 0 pre.length pre.length 0
          pars none
          = tscanGo inner (f2 + 1) 0 0 (pre.length + key.length + 1)
            (pre.length + key.length + 1) 1 pars (some key) := by
        simp only [tscanGo]
        rw [tscanNeedles_ne pars hpars]
        simp only [minfind]
        rw [hdrop, minfindGo_plain _ needles6_heads key
          (plainStrB_forall key hk)
          ('=' :: (v ++ ('|' :: (chunkBody c2 ++ chunkTexts cs))))
          pre.length]
        simp only [minfindGo]
        rw [find6_eq]
        dsimp only
        rw [hslice1]
        simp [str]
      have hgrp : inner = (pre ++ (key ++ ['=']))
          ++ (v ++ ('|' :: (chunkBody c2 ++ chunkTexts cs))) := by
        rw [hin]
        simp [chunkBody, chunkTexts, chunkText]
      have hdrop2 : inner.drop (pre.length + key.length + 1)
          = v ++ ('|' :: (chunkBody c2 ++ chunkTexts cs)) := by
        rw [hgrp]
        exact List.drop_left' (by simp; omega)
      have hslice2 : listSlice inner (pre.length + key.length + 1)
          (pre.length + key.length + 1 + v.length) = v := by
        rw [hgrp]
        exact listSlice_middle' (pre ++ (key ++ ['='])) v _ _ _
          (by simp; omega) (by simp; omega)
      have hrun2 : tscanGo inner (f2 + 1) 0 0 (pre.length + key.length + 1)
          (pre.length + key.length + 1) 1 pars (some key)
          = tscanGo inner f2 0 0 (pre.length + key.length + 1 + v.length + 1)
            (pre.length + key.length + 1 + v.length + 1) 0
            (pars ++ [(some key, v)]) none := by
        simp only [tscanGo]
        rw [tscanNeedles_noeq pars]
        simp only [minfind]
        rw [hdrop2, minfindGo_plain _ needles5_heads v
          (plainStrB_forall v hv) ('|' :: (chunkBody c2 ++ chunkTexts cs))
          (pre.length + key.length + 1)]
        simp only [minfindGo]
        rw [find5_pipe]
        dsimp only
        rw [hslice2]
        simp [str]
      have hfl : (chunkBody c2 ++ chunkTexts cs).length + 1 ≤ f2 := by
        simp only [chunkBody, chunkTexts, chunkText, List.length_append,
          List.length_cons] at hfuel ⊢
        omega
      have hin2 : inner = (pre ++ (key ++ ('=' :: (v ++ ['|']))))
          ++ (chunkBody c2 ++ chunkTexts cs) := by
        rw [hin]
        simp [chunkBody, chunkTexts, chunkText]
      have hres := ih c2 (pre ++ (key ++ ('=' :: (v ++ ['|']))))
        (pars ++ [(some key, v)]) f2 hin2 hplc2 hplcs2 (by simp) hfl
      rw [hrun1, hrun2,
        (show pre.length + key.length + 1 + v.length + 1
            = (pre ++ (key ++ ('=' :: (v ++ ['|'])))).length from
          by simp; omega),
        hres]
      simp [parsedChunks, parsedChunk]

/-- Serialization distributes over list append. -/
theorem chunkTexts_append (x y : List (TKey × Str)) :
    chunkTexts (x ++ y) = chunkTexts x ++ chunkTexts y := by
  induction x with
  | nil => simp [chunkTexts]
  | cons c x ih => simp [chunkTexts, ih]

/-- A named entry contributes no integer key. -/
theorem intKeys_cons_name (s v : Str) (rest : List (TKey × Str)) :
    intKeys ((TKey.name s, v) :: rest) = intKeys rest := by
  simp [intKeys, intEntries, List.filterMap_cons]

/-- An integer entry contributes its key. -/
theorem intKeys_cons_num (k : Nat) (v : Str) (rest : List (TKey × Str)) :
    intKeys ((TKey.num k, v) :: rest) = k :: intKeys rest := by
  simp [intKeys, intEntries, List.filterMap_cons]

/-- Members of a markup-free argument list are componentwise markup-free. -/
theorem plainArgs_mem (m : List (TKey × Str)) (p : TKey × Str)
    (h : plainArgsB m = true) (hp : p ∈ m) :
    plainKeyB p.1 = true ∧ plainStrB p.2 = true := by
  have := List.all_eq_true.mp h p hp
  simpa using this

/-- An integer-keyed member appears in the positional projection. -/
theorem mem_intEntries_of_mem (m : List (TKey × Str)) (j : Nat) (v : Str)
    (h : (TKey.num j, v) ∈ m) : (j, v) ∈ intEntries m := by
  simp only [intEntries, List.mem_filterMap]
  exact ⟨(TKey.num j, v), h, rfl⟩

/-- An integer-keyed member's key appears in the key projection. -/
theorem mem_intKeys_of_mem (m : List (TKey × Str)) (j : Nat) (v : Str)
    (h : (TKey.num j, v) ∈ m) : j ∈ intKeys m := by
  simp only [intKeys, List.mem_map]
  exact ⟨(j, v), mem_intEntries_of_mem m j v h, rfl⟩

/-- The positional projection commutes with reversal. -/
theorem intEntries_reverse (m : List (TKey × Str)) :
    intEntries m.reverse = (intEntries m).reverse := by
  simp [intEntries, List.filterMap_reverse]

/-- On a list of pairs with pairwise-distinct first components, `find?` at a
member's key returns that member. -/
theorem find?_fst_nodup (l : List (Nat × Str)) (j : Nat) (v : Str)
    (hnd : (l.map Prod.fst).Nodup) (hmem : (j, v) ∈ l) :
    l.find? (fun q => decide (q.1 = j)) = some (j, v) := by
  induction l with
  | nil => exact absurd hmem (List.not_mem_nil _)
  | cons q l ih =>
    simp only [List.map_cons, List.nodup_cons] at hnd
    rcases List.mem_cons.mp hmem with h | h
    · subst h
      simp [List.find?_cons]
    · by_cases hq : q.1 = j
      · exfalso
        have : j ∈ l.map Prod.fst := List.mem_map.mpr ⟨(j, v), h, rfl⟩
        rw [← hq] at this
        exact hnd.1 this
      · rw [List.find?_cons_of_neg _ (by simpa using hq)]
        exact ih hnd.2 h

/-- Under pairwise-distinct integer keys, `dict(args).get(k, d)` returns the
value of the unique entry with key `k`. -/
theorem dictGetD_unique (m : List (TKey × Str)) (j : Nat) (v d : Str)
    (hnd : (intKeys m).Nodup) (hmem : (TKey.num j, v) ∈ m) :
    dictGetD m (TKey.num j) d = v := by
  unfold dictGetD
  rw [find_num_intEntries, intEntries_reverse,
    find?_fst_nodup ((intEntries m).reverse) j v
      (by
        rw [List.map_reverse, List.nodup_reverse]
        exact hnd)
      (List.mem_reverse.mpr (mem_intEntries_of_mem m j v hmem))]
  rfl

/-- On a markup-free argument list, `dict(args).get(k, "")` is markup-free. -/
theorem dictGetD_plain (m : List (TKey × Str)) (k : TKey)
    (h : plainArgsB m = true) :
    plainStrB (dictGetD m k (str "")) = true := by
  unfold dictGetD
  cases hf : m.reverse.find? (fun p => decide (p.1 = k)) with
  | none => rfl
  | some p =>
    have hp : p ∈ m.reverse := List.mem_of_find?_eq_some hf
    exact (plainArgs_mem m p h (List.mem_reverse.mp hp)).2

/-- The unlabeled values of the chunks an argument list serializes to are
exactly its positional values, in order. -/
theorem noneVals_parsedChunks (cs : List (TKey × Str)) :
    noneVals (parsedChunks cs) = (intEntries cs).map Prod.snd := by
  induction cs with
  | nil => rfl
  | cons c cs ih =>
    obtain ⟨k, v⟩ := c
    cases k with
    | num n =>
      simp only [parsedChunks, List.map_cons, parsedChunk, noneVals,
        List.filterMap_cons, intEntries]
      simpa [noneVals, parsedChunks, intEntries] using ih
    | name s =>
      simp only [parsedChunks, List.map_cons, parsedChunk, noneVals,
        List.filterMap_cons, intEntries]
      simpa [noneVals, parsedChunks, intEntries] using ih

/-- Renumbering the values of a consecutively keyed pair range from its own
starting point reproduces the range. -/
theorem numberFrom_range_map (w : Nat → Str) :
    ∀ (m n : Nat),
      numberFrom n (((List.range' n m).map (fun j => (j, w j))).map Prod.snd)
        = (List.range' n m).map (fun j => (j, w j)) := by
  intro m
  induction m with
  | zero => intro n; rfl
  | succ m ih =>
    intro n
    rw [List.range'_succ]
    simp only [List.map_cons, numberFrom]
    rw [ih (n + 1)]

/-- Slicing a brace-wrapped text from offset 2 to length minus 2 recovers the
wrapped text. -/
theorem listSlice_inner (M : Str) :
    listSlice (str "\x7b\x7b" ++ M ++ str "\x7d\x7d") 2
      ((str "\x7b\x7b" ++ M ++ str "\x7d\x7d").length - 2) = M := by
  unfold listSlice
  rw [(show (str "\x7b\x7b" ++ M ++ str "\x7d\x7d").length - 2
      = (str "\x7b\x7b" ++ M).length from by simp [str])]
  rw [List.take_left' rfl]
  exact List.drop_left' rfl

/-- The template scanner splits the serialization of a markup-free name and
argument list back into the name chunk followed by one chunk per argument. -/
theorem templateChunks_make (name : Str) (cs : List (TKey × Str))
    (hname : plainStrB name = true) (hcs : plainArgsB cs = true) :
    templateChunks (name ++ chunkTexts cs) = (none, name) :: parsedChunks cs
    := by
  cases cs with
  | nil =>
    have hrun : tscanGo (name ++ chunkTexts [])
        ((name ++ chunkTexts []).length + 1) 0 0 0 0 0 [] none
        = ([], none, 0) := by
      simp only [tscanGo]
      rw [tscanNeedles_start]
      simp only [minfind]
      rw [List.drop_zero]
      simp only [chunkTexts]
      rw [minfindGo_plain _ needles5_heads name
        (plainStrB_forall name hname) [] 0]
      rfl
    simp only [templateChunks]
    rw [hrun]
    simp [chunkTexts, parsedChunks]
  | cons c cs' =>
    simp only [plainArgsB, List.all_cons, Bool.and_eq_true] at hcs
    obtain ⟨⟨hk1, hv1⟩, hcs'⟩ := hcs
    have hplc : (plainKeyB c.1 && plainStrB c.2) = true := by
      simp [hk1, hv1]
    have hcsB : plainArgsB cs' = true := hcs'
    have hin : name ++ chunkTexts (c :: cs')
        = name ++ ('|' :: (chunkBody c ++ chunkTexts cs')) := by
      simp [chunkTexts, chunkText]
    have hslice : listSlice (name ++ ('|' :: (chunkBody c ++ chunkTexts cs')))
        0 (0 + name.length) = name := by
      simp only [listSlice, List.drop_zero, Nat.zero_add]
      exact List.take_left' rfl
    have hrun : tscanGo (name ++ chunkTexts (c :: cs'))
        ((name ++ chunkTexts (c :: cs')).length + 1) 0 0 0 0 0 [] none
        = tscanGo (name ++ chunkTexts (c :: cs'))
            ((name ++ chunkTexts (c :: cs')).length) 0 0
            (0 + name.length + 1) (0 + name.length + 1) 0
            [(none, name)] none := by
      simp only [tscanGo]
      rw [tscanNeedles_start]
      simp only [minfind]
      rw [List.drop_zero, hin,
        minfindGo_plain _ needles5_heads name (plainStrB_forall name hname)
          ('|' :: (chunkBody c ++ chunkTexts cs')) 0]
      simp only [minfindGo]
      rw [find5_pipe]
      dsimp only
      rw [hslice]
      simp [str]
    simp only [templateChunks]
    rw [hrun]
    rw [(show (0 + name.length + 1) = (name ++ ['|']).length from by simp)]
    have hres := tscan_chunks (name ++ chunkTexts (c :: cs')) cs' c
      (name ++ ['|']) [(none, name)]
      ((name ++ chunkTexts (c :: cs')).length)
      (by simp [chunkTexts, chunkText]) hplc hcsB (by simp)
      (by simp [chunkTexts, chunkText])
    rw [hres]
    simp

/-- Parsing a brace-wrapped serialization of a markup-free name and argument
list succeeds, with the stripped name and the arguments rebuilt by the
argument-building loop from the per-argument chunks. -/
theorem parse_template_wrapped (name : Str) (cs : List (TKey × Str))
    (hname : plainStrB name = true) (hcs : plainArgsB cs = true) :
    parse_template (str "\x7b\x7b" ++ (name ++ chunkTexts cs) ++ str "\x7d\x7d")
      = some (⟨str "\x7b\x7b" ++ (name ++ chunkTexts cs) ++ str "\x7d\x7d",
              strip name,
              (buildArgsGo (parsedChunks cs) 0 [] []).1⟩,
             (buildArgsGo (parsedChunks cs) 0 [] []).2.1) := by
  have hpre : (str "\x7b\x7b").isPrefixOf
      (str "\x7b\x7b" ++ (name ++ chunkTexts cs) ++ str "\x7d\x7d") = true := by
    rw [List.isPrefixOf_iff_prefix, List.append_assoc]
    exact List.prefix_append _ _
  have hsuf : (str "\x7d\x7d").isSuffixOf
      (str "\x7b\x7b" ++ (name ++ chunkTexts cs) ++ str "\x7d\x7d") = true := by
    rw [List.isSuffixOf_iff_suffix]
    exact List.suffix_append _ _
  simp only [parse_template]
  rw [if_pos ⟨hpre, hsuf⟩]
  rw [listSlice_inner, templateChunks_make name cs hname hcs]
  simp

/-- The emission pass of `make_template` is the specification pass: it
appends the serialized chunks to the accumulated string until done, or
breaks to the densifying rebuild at the first out-of-order integer key. -/
theorem mtPassGo_spec (cur : List (TKey × Str)) :
    ∀ (l : List (TKey × Str)) (argstr : Str) (a : Nat),
      mtPassGo cur l argstr a
        = match passGo a l with
          | some r => MtPass.done (argstr ++ r.1)
          | none => MtPass.redo (mtRebuildGo cur cur 1 []) := by
  intro l
  induction l with
  | nil =>
    intro argstr a
    simp [mtPassGo, passGo]
  | cons c rest ih =>
    intro argstr a
    obtain ⟨k, v⟩ := c
    cases k with
    | name s =>
      simp only [mtPassGo, passGo]
      rw [ih]
      cases passGo a rest <;> simp [chunkText, chunkBody]
    | num key =>
      simp only [mtPassGo, passGo]
      by_cases h1 : a < key
      · rw [if_pos h1, if_pos h1, ih]
        cases passGo key rest <;> simp [chunkText, chunkBody]
      · rw [if_neg h1, if_neg h1]
        by_cases h2 : key < a
        · rw [if_pos h2, if_pos h2]
        · rw [if_neg h2, if_neg h2]
          exact ih argstr a

/-- When the integer keys continue strictly upward from the running index,
the pass emits every chunk in order. -/
theorem passGo_chain :
    ∀ (l : List (TKey × Str)) (a : Nat),
      List.Chain' (· < ·) (a :: intKeys l) →
      ∃ b, passGo a l = some (chunkTexts l, b) := by
  intro l
  induction l with
  | nil =>
    intro a _
    exact ⟨a, rfl⟩
  | cons c rest ih =>
    intro a h
    obtain ⟨k, v⟩ := c
    cases k with
    | name s =>
      rw [intKeys_cons_name] at h
      obtain ⟨b, hb⟩ := ih a h
      exact ⟨b, by simp [passGo, hb, chunkTexts]⟩
    | num key =>
      rw [intKeys_cons_num, List.chain'_cons] at h
      obtain ⟨b, hb⟩ := ih key h.2
      exact ⟨b, by simp [passGo, h.1, hb, chunkTexts]⟩

/-- When the integer keys are pairwise distinct but not strictly increasing
from the running index, the pass breaks to the rebuild. -/
theorem passGo_not_chain :
    ∀ (l : List (TKey × Str)) (a : Nat),
      (a :: intKeys l).Nodup →
      ¬ List.Chain' (· < ·) (a :: intKeys l) →
      passGo a l = none := by
  intro l
  induction l with
  | nil =>
    intro a _ hch
    exact absurd (by simp [intKeys, intEntries]) hch
  | cons c rest ih =>
    intro a hnd hch
    obtain ⟨k, v⟩ := c
    cases k with
    | name s =>
      rw [intKeys_cons_name] at hnd hch
      simp [passGo, ih a hnd hch]
    | num key =>
      rw [intKeys_cons_num] at hnd hch
      by_cases h1 : a < key
      · have hch2 : ¬ List.Chain' (· < ·) (key :: intKeys rest) := by
          intro hc
          exact hch (List.chain'_cons.mpr ⟨h1, hc⟩)
        have hnd2 : (key :: intKeys rest).Nodup := (List.nodup_cons.mp hnd).2
        simp [passGo, h1, ih key hnd2 hch2]
      · by_cases h2 : key < a
        · simp [passGo, h1, h2]
        · exfalso
          have hak : a = key := by omega
          exact absurd (by rw [hak]; exact List.mem_cons_self _ _)
            (List.nodup_cons.mp hnd).1

/-- The rebuild accumulates onto its accumulator by appending. -/
theorem mtRebuildGo_acc (orig : List (TKey × Str)) :
    ∀ (l : List (TKey × Str)) (skip : Nat) (acc : List (TKey × Str)),
      mtRebuildGo orig l skip acc = acc ++ mtRebuildGo orig l skip [] := by
  intro l
  induction l with
  | nil =>
    intro skip acc
    simp [mtRebuildGo]
  | cons c rest ih =>
    intro skip acc
    obtain ⟨k, v⟩ := c
    cases k with
    | name s =>
      simp only [mtRebuildGo]
      rw [ih skip (acc ++ [(TKey.name s, v)]),
        ih skip ([] ++ [(TKey.name s, v)])]
      simp
    | num key =>
      simp only [mtRebuildGo]
      by_cases h : key ≤ skip
      · rw [if_pos h, if_pos h]
        exact ih skip acc
      · rw [if_neg h, if_neg h]
        rw [ih key
          (acc
            ++ (List.range' skip (key - skip)).map
              (fun j => (TKey.num j, dictGetD orig (TKey.num j) (str "")))
            ++ [(TKey.num key, v)]),
          ih key
          ([]
            ++ (List.range' skip (key - skip)).map
              (fun j => (TKey.num j, dictGetD orig (TKey.num j) (str "")))
            ++ [(TKey.num key, v)])]
        simp

/-- Processing a consecutive run of gap-filling integer entries from a
running index at or just below the run start: the pass emits the run members
above the index and ends with the index at the last run member. -/
theorem passGo_fills (w : Nat → Str) :
    ∀ (len skip a : Nat) (rest : List (TKey × Str)),
      1 ≤ skip → skip - 1 ≤ a → a ≤ skip → 1 ≤ len →
      passGo a
          ((List.range' skip len).map (fun j => (TKey.num j, w j)) ++ rest)
        = (passGo (skip + len - 1) rest).map
            (fun r =>
              (chunkTexts
                ((List.range' (a + 1) (skip + len - 1 - a)).map
                  (fun j => (TKey.num j, w j))) ++ r.1, r.2)) := by
  intro len
  induction len with
  | zero =>
    intro skip a rest _ _ _ h4
    omega
  | succ len ih =>
    intro skip a rest h1 h2 h3 _
    rw [List.range'_succ]
    simp only [List.map_cons, List.cons_append]
    rcases Nat.lt_or_ge a skip with hlt | hge
    · have hstep : passGo a ((TKey.num skip, w skip) ::
          ((List.range' (skip + 1) len).map (fun j => (TKey.num j, w j))
            ++ rest))
          = (passGo skip ((List.range' (skip + 1) len).map
              (fun j => (TKey.num j, w j)) ++ rest)).map
            (fun r => (chunkText (TKey.num skip, w skip) ++ r.1, r.2)) := by
        simp [passGo, hlt]
      rw [hstep]
      cases len with
      | zero =>
        rw [List.range'_zero]
        simp only [List.map_nil, List.nil_append]
        rw [(show skip + 1 - 1 = skip from by omega)]
        rw [(show skip - a = 1 from by omega),
          (show a + 1 = skip from by omega)]
        cases passGo skip rest <;>
          simp [chunkTexts, chunkText]
      | succ len2 =>
        rw [ih (skip + 1) skip rest (by omega) (by omega) (by omega)
          (by omega)]
        rw [(show skip + 1 + (len2 + 1) - 1 = skip + (len2 + 1 + 1) - 1 from
          by omega)]
        rw [(show skip + (len2 + 1 + 1) - 1 - skip = len2 + 1 from by omega),
          (show skip + (len2 + 1 + 1) - 1 - a = len2 + 1 + 1 from by omega),
          (show a + 1 = skip from by omega)]
        cases passGo (skip + (len2 + 1 + 1) - 1) rest <;>
          simp [chunkTexts, chunkText, List.range'_succ]
    · have ha : a = skip := by omega
      subst ha
      have hstep : passGo a ((TKey.num a, w a) ::
          ((List.range' (a + 1) len).map (fun j => (TKey.num j, w j))
            ++ rest))
          = passGo a ((List.range' (a + 1) len).map
              (fun j => (TKey.num j, w j)) ++ rest) := by
        simp [passGo]
      rw [hstep]
      cases len with
      | zero =>
        rw [List.range'_zero]
        simp only [List.map_nil, List.nil_append]
        rw [(show a + 1 - 1 = a from by omega)]
        rw [(show a - a = 0 from by omega), List.range'_zero]
        cases passGo a rest <;> simp [chunkTexts]
      | succ len2 =>
        rw [ih (a + 1) a rest (by omega) (by omega) (by omega) (by omega)]
        rw [(show a + 1 + (len2 + 1) - 1 = a + (len2 + 1 + 1) - 1 from
          by omega)]

/-- Positional projection of a list of integer-keyed pairs built from a key
list. -/
theorem intEntries_num_map (w : Nat → Str) (L : List Nat) :
    intEntries (L.map (fun j => (TKey.num j, w j)))
      = L.map (fun j => (j, w j)) := by
  induction L with
  | nil => rfl
  | cons j L ih =>
    simp only [List.map_cons, intEntries, List.filterMap_cons]
    simpa [intEntries] using ih

/-- Gap fills drawn from a markup-free argument list are markup-free. -/
theorem plainArgs_num_map (orig : List (TKey × Str))
    (h : plainArgsB orig = true) (L : List Nat) :
    plainArgsB (L.map
      (fun j => (TKey.num j, dictGetD orig (TKey.num j) (str "")))) = true
    := by
  simp only [plainArgsB]
  rw [List.all_eq_true]
  intro p hp
  obtain ⟨j, _, rfl⟩ := List.mem_map.mp hp
  simp [plainKeyB, dictGetD_plain orig _ h]

/-- Running the specification pass over the densifying rebuild of any suffix:
the pass completes, emitting a markup-free argument list whose positional
entries are the dense range from just above the running index up to the final
index, each filled from `dict(args)`; the final index is the running index or
one of the suffix's integer keys, and it dominates all of them. -/
theorem rebuild_pass (orig : List (TKey × Str))
    (hplain : plainArgsB orig = true)
    (hnd : (intKeys orig).Nodup) :
    ∀ (l : List (TKey × Str)) (skip a : Nat),
      1 ≤ skip → skip - 1 ≤ a → a ≤ skip →
      (∀ p ∈ l, p ∈ orig) →
      ∃ b E,
        passGo a (mtRebuildGo orig l skip []) = some (chunkTexts E, b) ∧
        plainArgsB E = true ∧
        intEntries E
          = (List.range' (a + 1) (b - a)).map
              (fun j => (j, dictGetD orig (TKey.num j) (str ""))) ∧
        a ≤ b ∧ (b = a ∨ b ∈ intKeys l) ∧
        (∀ k ∈ intKeys l, k ≤ max skip b) := by
  intro l
  induction l with
  | nil =>
    intro skip a _ _ _ _
    refine ⟨a, [], rfl, rfl, ?_, le_refl a, Or.inl rfl, ?_⟩
    · simp [intEntries]
    · intro k hk
      simp [intKeys, intEntries] at hk
  | cons c rest ih =>
    intro skip a h1 h2 h3 hsub
    obtain ⟨k, v⟩ := c
    cases k with
    | name s =>
      have hrw : mtRebuildGo orig ((TKey.name s, v) :: rest) skip []
          = (TKey.name s, v) :: mtRebuildGo orig rest skip [] := by
        simp only [mtRebuildGo]
        rw [mtRebuildGo_acc orig rest skip ([] ++ [(TKey.name s, v)])]
        simp
      obtain ⟨b, E, hpass, hplE, hint, hab, hbor, hup⟩ :=
        ih skip a h1 h2 h3 (fun p hp => hsub p (List.mem_cons_of_mem _ hp))
      have hm := plainArgs_mem orig (TKey.name s, v) hplain
        (hsub _ (List.mem_cons_self _ _))
      refine ⟨b, (TKey.name s, v) :: E, ?_, ?_, ?_, hab, ?_, ?_⟩
      · rw [hrw]
        simp [passGo, hpass, chunkTexts]
      · simp only [plainArgsB, List.all_cons, Bool.and_eq_true]
        exact ⟨⟨hm.1, hm.2⟩, hplE⟩
      · simpa [intEntries, List.filterMap_cons] using hint
      · rw [intKeys_cons_name]
        exact hbor
      · rw [intKeys_cons_name]
        exact hup
    | num key =>
      by_cases hks : key ≤ skip
      · have hrw : mtRebuildGo orig ((TKey.num key, v) :: rest) skip []
            = mtRebuildGo orig rest skip [] := by
          simp only [mtRebuildGo]
          rw [if_pos hks]
        obtain ⟨b, E, hpass, hplE, hint, hab, hbor, hup⟩ :=
          ih skip a h1 h2 h3 (fun p hp => hsub p (List.mem_cons_of_mem _ hp))
        refine ⟨b, E, by rw [hrw]; exact hpass, hplE, hint, hab, ?_, ?_⟩
        · rw [intKeys_cons_num]
          rcases hbor with h | h
          · exact Or.inl h
          · exact Or.inr (List.mem_cons_of_mem _ h)
        · rw [intKeys_cons_num]
          intro k hk
          rcases List.mem_cons.mp hk with h | h
          · omega
          · exact hup k h
      · have hklt : skip < key := by omega
        have hrw : mtRebuildGo orig ((TKey.num key, v) :: rest) skip []
            = ((List.range' skip (key - skip)).map
                (fun j => (TKey.num j, dictGetD orig (TKey.num j) (str ""))))
              ++ ((TKey.num key, v) :: mtRebuildGo orig rest key []) := by
          simp only [mtRebuildGo]
          rw [if_neg hks]
          rw [mtRebuildGo_acc orig rest key
            ([] ++ (List.range' skip (key - skip)).map
                (fun j => (TKey.num j, dictGetD orig (TKey.num j) (str "")))
              ++ [(TKey.num key, v)])]
          simp
        obtain ⟨b, E, hpass, hplE, hint, hab, hbor, hup⟩ :=
          ih key key (by omega) (by omega) (le_refl key)
            (fun p hp => hsub p (List.mem_cons_of_mem _ hp))
        have hemit : passGo (key - 1)
            ((TKey.num key, v) :: mtRebuildGo orig rest key [])
            = (passGo key (mtRebuildGo orig rest key [])).map
                (fun r => (chunkText (TKey.num key, v) ++ r.1, r.2)) := by
          simp [passGo, (show key - 1 < key from by omega)]
        have hfull : passGo a
            (mtRebuildGo orig ((TKey.num key, v) :: rest) skip [])
            = some (chunkTexts
                ((List.range' (a + 1) (key - 1 - a)).map
                  (fun j => (TKey.num j, dictGetD orig (TKey.num j)
                    (str ""))))
                ++ (chunkText (TKey.num key, v) ++ chunkTexts E), b) := by
          rw [hrw, passGo_fills (fun j => dictGetD orig (TKey.num j) (str ""))
            (key - skip) skip a
            ((TKey.num key, v) :: mtRebuildGo orig rest key [])
            h1 h2 h3 (by omega)]
          rw [(show skip + (key - skip) - 1 = key - 1 from by omega)]
          rw [hemit, hpass]
          rfl
        have hvw : v = dictGetD orig (TKey.num key) (str "") :=
          (dictGetD_unique orig key v (str "") hnd
            (hsub _ (List.mem_cons_self _ _))).symm
        have hranges : List.range' (a + 1) (key - 1 - a)
              ++ List.range' key (b - key + 1)
            = List.range' (a + 1) (b - a) := by
          have h := List.range'_append_1 (a + 1) (key - 1 - a) (b - key + 1)
          rw [(show a + 1 + (key - 1 - a) = key from by omega),
            (show b - key + 1 + (key - 1 - a) = b - a from by omega)] at h
          exact h
        refine ⟨b,
          ((List.range' (a + 1) (key - 1 - a)).map
            (fun j => (TKey.num j, dictGetD orig (TKey.num j) (str ""))))
            ++ ((TKey.num key, v) :: E), ?_, ?_, ?_, by omega, ?_, ?_⟩
        · rw [hfull, chunkTexts_append]
          rfl
        · simp only [plainArgsB, List.all_append, List.all_cons,
            Bool.and_eq_true]
          have hm := plainArgs_mem orig (TKey.num key, v) hplain
            (hsub _ (List.mem_cons_self _ _))
          exact ⟨plainArgs_num_map orig hplain _, ⟨hm.1, hm.2⟩, hplE⟩
        · rw [intEntries_append, intEntries_num_map]
          have hcons : intEntries ((TKey.num key, v) :: E)
              = (key, v) :: intEntries E := by
            simp [intEntries, List.filterMap_cons]
          rw [hcons, hint, hvw]
          rw [(show ((key, dictGetD orig (TKey.num key) (str ""))
                :: (List.range' (key + 1) (b - key)).map
                  (fun j => (j, dictGetD orig (TKey.num j) (str ""))))
              = (List.range' key (b - key + 1)).map
                  (fun j => (j, dictGetD orig (TKey.num j) (str ""))) from by
            rw [(show b - key + 1 = (b - key) + 1 from rfl), List.range'_succ]
            simp)]
          rw [← List.map_append, hranges]
        · rw [intKeys_cons_num]
          rcases hbor with h | h
          · exact Or.inr (h ▸ List.mem_cons_self _ _)
          · exact Or.inr (List.mem_cons_of_mem _ h)
        · rw [intKeys_cons_num]
          intro k hk
          rcases List.mem_cons.mp hk with h | h
          · have : key ≤ b := hab
            omega
          · have := hup k h
            have : k ≤ b := by
              have hkb : key ≤ b := hab
              omega
            omega

/-- C3: universal round-trip of `make_template` (`num_first=False`) through
`parse_template`, for a markup-free name and a markup-free argument list with
pairwise-distinct positive integer keys.  Re-parsing always succeeds with the
stripped name.  When some integer key arrives out of increasing order the
reconciliation pass runs, and the re-parsed positional entries are the dense
sequence `1..m` (`m` the maximum integer key), position `k` carrying the
input value for key `k` and unreferenced positions the empty string; but
when the integer keys are strictly increasing the reconciliation never
triggers and the values are emitted compactly, so the re-parsed positional
entries are the supplied values in input order renumbered consecutively from
1, with no gap filling. -/
theorem make_template_reorder_roundtrip (name : Str)
    (args : List (TKey × Str))
    (hname : plainStrB name = true)
    (hargs : plainArgsB args = true)
    (hpos : ∀ k ∈ intKeys args, 1 ≤ k)
    (hnd : (intKeys args).Nodup) :
    ∃ t ws, parse_template (make_template name args) = some (t, ws) ∧
      t.name = strip name ∧
      ((List.Chain' (· < ·) (0 :: intKeys args) →
          intEntries t.args
            = numberFrom 1 ((intEntries args).map Prod.snd)) ∧
       (¬ List.Chain' (· < ·) (0 :: intKeys args) →
          ∀ kmax ∈ intKeys args, (∀ k ∈ intKeys args, k ≤ kmax) →
            intEntries t.args
              = (List.range' 1 kmax).map
                  (fun j => (j, dictGetD args (TKey.num j) (str ""))))) := by
  by_cases hch : List.Chain' (· < ·) (0 :: intKeys args)
  · obtain ⟨b, hb⟩ := passGo_chain args 0 hch
    have hm : make_template name args
        = str "\x7b\x7b" ++ (name ++ chunkTexts args) ++ str "\x7d\x7d" := by
      unfold make_template
      rw [(show args.length + 2 = args.length + 1 + 1 from rfl)]
      simp only [mtLoop]
      rw [mtPassGo_spec args args [] 0, hb]
      show str "\x7b\x7b" ++ name ++ ([] ++ chunkTexts args) ++ str "\x7d\x7d"
        = _
      simp
    rw [hm, parse_template_wrapped name args hname hargs]
    refine ⟨_, _, rfl, rfl, ?_, ?_⟩
    · intro _
      have h := buildArgsGo_intEntries (parsedChunks args) [] [] [] rfl
      rw [noneVals_parsedChunks] at h
      simpa using h
    · intro hnc
      exact absurd hch hnc
  · have hnd0 : (0 :: intKeys args).Nodup := by
      rw [List.nodup_cons]
      exact ⟨fun h0 => by have := hpos 0 h0; omega, hnd⟩
    have hnone := passGo_not_chain args 0 hnd0 hch
    obtain ⟨b, E, hpass, hplE, hint, hab, hbor, hup⟩ :=
      rebuild_pass args hargs hnd args 1 0 (le_refl 1) (by omega) (by omega)
        (fun p hp => hp)
    have hm : make_template name args
        = str "\x7b\x7b" ++ (name ++ chunkTexts E) ++ str "\x7d\x7d" := by
      unfold make_template
      rw [(show args.length + 2 = args.length + 1 + 1 from rfl)]
      simp only [mtLoop]
      rw [mtPassGo_spec args args [] 0, hnone]
      show mtLoop name (args.length + 1) (mtRebuildGo args args 1 []) = _
      simp only [mtLoop]
      rw [mtPassGo_spec _ _ [] 0, hpass]
      show str "\x7b\x7b" ++ name ++ ([] ++ chunkTexts E) ++ str "\x7d\x7d"
        = _
      simp
    rw [hm, parse_template_wrapped name E hname hplE]
    refine ⟨_, _, rfl, rfl, ?_, ?_⟩
    · intro hc
      exact absurd hc hch
    · intro _ kmax hkmem hkub
      have hbmem : b ∈ intKeys args := by
        rcases hbor with h0 | h
        · exfalso
          subst h0
          have hall : ∀ k ∈ intKeys args, k = 1 := by
            intro k hk
            have h5 := hup k hk
            have h6 := hpos k hk
            omega
          have hkeys : intKeys args = [1] := by
            cases hkl : intKeys args with
            | nil =>
              rw [hkl] at hkmem
              exact absurd hkmem (List.not_mem_nil _)
            | cons x xs =>
              have hx : x = 1 := hall x (by
                rw [hkl]
                exact List.mem_cons_self _ _)
              have hxs : xs = [] := by
                cases hxs2 : xs with
                | nil => rfl
                | cons y ys =>
                  exfalso
                  have hy : y = 1 := hall y (by
                    rw [hkl, hxs2]
                    exact List.mem_cons_of_mem _ (List.mem_cons_self _ _))
                  have hnd2 := hnd
                  rw [hkl, hxs2, List.nodup_cons] at hnd2
                  refine hnd2.1 ?_
                  rw [hx, hy]
                  exact List.mem_cons_self _ _
              rw [hx, hxs]
          apply hch
          rw [hkeys]
          exact List.chain'_cons.mpr ⟨by omega, List.chain'_singleton _⟩
        · exact h
      have hb1 : 1 ≤ b := hpos b hbmem
      have hbk : b = kmax := by
        have h7 := hkub b hbmem
        have h8 := hup kmax hkmem
        omega
      have h := buildArgsGo_intEntries (parsedChunks E) [] [] [] rfl
      rw [noneVals_parsedChunks, hint] at h
      rw [(show (0 : Nat) + 1 = 1 from rfl), (show b - 0 = b from rfl),
        hbk, List.nil_append, numberFrom_range_map] at h
      simpa using h

/-- Witness for `make_template_reorder_roundtrip`: the hypotheses hold for
name `t` and the out-of-order argument keys `[1, 3, 2]`, and the theorem
applies. -/
theorem make_template_reorder_roundtrip_witness :
    (plainStrB (str "t") = true ∧
     plainArgsB [(TKey.num 1, str "a"), (TKey.num 3, str "c"),
       (TKey.num 2, str "b")] = true ∧
     (∀ k ∈ intKeys [(TKey.num 1, str "a"), (TKey.num 3, str "c"),
       (TKey.num 2, str "b")], 1 ≤ k) ∧
     (intKeys [(TKey.num 1, str "a"), (TKey.num 3, str "c"),
       (TKey.num 2, str "b")]).Nodup) ∧
    (∃ t ws, parse_template (make_template (str "t")
        [(TKey.num 1, str "a"), (TKey.num 3, str "c"),
          (TKey.num 2, str "b")]) = some (t, ws) ∧
      t.name = strip (str "t") ∧
      ((List.Chain' (· < ·) (0 :: intKeys [(TKey.num 1, str "a"),
          (TKey.num 3, str "c"), (TKey.num 2, str "b")]) →
          intEntries t.args
            = numberFrom 1 ((intEntries [(TKey.num 1, str "a"),
                (TKey.num 3, str "c"),
                (TKey.num 2, str "b")]).map Prod.snd)) ∧
       (¬ List.Chain' (· < ·) (0 :: intKeys [(TKey.num 1, str "a"),
          (TKey.num 3, str "c"), (TKey.num 2, str "b")]) →
          ∀ kmax ∈ intKeys [(TKey.num 1, str "a"), (TKey.num 3, str "c"),
            (TKey.num 2, str "b")],
            (∀ k ∈ intKeys [(TKey.num 1, str "a"), (TKey.num 3, str "c"),
              (TKey.num 2, str "b")], k ≤ kmax) →
            intEntries t.args
              = (List.range' 1 kmax).map
                  (fun j => (j, dictGetD [(TKey.num 1, str "a"),
                    (TKey.num 3, str "c"), (TKey.num 2, str "b")]
                    (TKey.num j) (str "")))))) :=
  ⟨⟨by decide, by decide, by decide, by decide⟩,
    make_template_reorder_roundtrip (str "t")
      [(TKey.num 1, str "a"), (TKey.num 3, str "c"), (TKey.num 2, str "b")]
      (by decide) (by decide) (by decide) (by decide)⟩
